import Mathlib

/-!
Verification of the go-thumbhash codec (`thumbhash.go`).

The Go source is shallowly embedded as follows:

* `float64` values are modelled as `ℚ`.  The only transcendental operation the
  code performs is `math.Cos(math.Pi / size * freq * (pos + 0.5))`; every use of
  `math.Cos` has exactly this argument shape, so the cosine basis is modelled by
  an abstract parameter `c : ℕ → ℕ → ℕ → ℚ` with `c size freq pos` standing for
  that value.  Theorems that depend on properties of the cosine take them as
  hypotheses (`|c s f p| ≤ 1`, and `c s 0 p = 1` since `math.Cos 0 = 1` exactly).
* Go `int` is modelled as `ℤ` (the values involved stay far below 2^63, so
  64-bit wrap-around never occurs; shifts `x << k` are written as the Mathlib
  integer `<<<`), Go `byte` as `ℕ` restricted to `< 256` where needed.
  `byte(v)` applied to an `int` keeps the low 8 bits in two's complement,
  i.e. `(v % 256).toNat`.
* Array writes that Go would perform on out-of-range indices (a panic) are
  modelled by `Option`: `none` corresponds to the panic / error path.
-/

namespace Thumbhash

/-- Go's `math.Round`: round half away from zero (`thumbhash.go`, `iround`). -/
def iround (x : ℚ) : ℤ :=
  if 0 ≤ x then Int.floor (x + 1/2) else Int.ceil (x - 1/2)

/-- `imax` from `thumbhash.go`: `if x >= y { return x }; return y`. -/
def imax (x y : ℤ) : ℤ :=
  if y ≤ x then x else y

/-- Go's conversion `byte(v)` of an `int`: the low 8 bits (two's complement). -/
def byteOfInt (v : ℤ) : ℕ :=
  (v % 256).toNat

/-- Go's arithmetic right shift `v >> k` on `int`: floor division by `2^k`. -/
def goShr (v : ℤ) (k : ℕ) : ℤ :=
  Int.fdiv v (2 ^ k)

/-- The coefficient pairs `(cx, cy)` visited by the triangular loops
`for cy := 0; cy < ny; cy++ { for cx := s0-when-cy=0-else-0 ; cx*ny < nx*(ny-cy); cx++ }`
of `encodeChannel` (`s0 = 0`) and `decodeChannel` (`s0 = 1`), in visit order.
The loop condition `cx*ny < nx*(ny-cy)` is antitone in `cx` and forces
`cx < nx`, so the `cx` values visited are exactly the members of
`List.range nx` satisfying it (together with the lower start bound). -/
def pairList (nx ny s0 : ℕ) : List (ℕ × ℕ) :=
  (List.range ny).flatMap fun cy =>
    ((List.range nx).filter fun cx =>
      decide ((if cy = 0 then s0 else 0) ≤ cx ∧ cx * ny < nx * (ny - cy))).map
      fun cx => (cx, cy)

/-- One 2-D DCT coefficient of `encodeChannel`:
`f = (Σ_y Σ_x channel[x+y*w] * fx[x] * fy) / nbPixels` with
`fx[x] = cos(π/w * cx * (x+0.5))` and `fy = cos(π/h * cy * (y+0.5))`,
the cosines abstracted by `c`. -/
def dct (c : ℕ → ℕ → ℕ → ℚ) (ch : List ℚ) (w h cx cy : ℕ) : ℚ :=
  (∑ y ∈ Finset.range h, ∑ x ∈ Finset.range w,
      ch.getD (x + y * w) 0 * c w cx x * c h cy y) / (w * h : ℚ)

/-- `encodeChannel` from `Encode`: returns `(dc, ac, scale)`.  The loop visits
`pairList nx ny 0`; the `(0,0)` term (visited first whenever the grid is
non-empty) becomes `dc`, all other visited terms are appended to `ac`;
`scale` accumulates `math.Max(scale, math.Abs(f))` over the `ac` terms, and
if `scale > 0` every `ac` entry is remapped to `0.5 + 0.5/scale*ac[i]`. -/
def encodeChannel (c : ℕ → ℕ → ℕ → ℚ) (ch : List ℚ) (w h nx ny : ℕ) :
    ℚ × List ℚ × ℚ :=
  let ps := pairList nx ny 0
  let dc : ℚ := if (0, 0) ∈ ps then dct c ch w h 0 0 else 0
  let acRaw := (ps.filter fun p => decide (0 < p.1 ∨ 0 < p.2)).map
    fun p => dct c ch w h p.1 p.2
  let scale := acRaw.foldl (fun s f => max s |f|) 0
  let ac := if 0 < scale then acRaw.map (fun f => 0.5 + 0.5 / scale * f) else acRaw
  (dc, ac, scale)

/-- The RGBA pixel buffer `Encode` works on (`rgba.Pix`): a flat byte list in
row-major RGBA order, of length `4*w*h`, every entry `≤ 255`. -/
structure RGBAImage where
  w : ℕ
  h : ℕ
  pix : List ℕ

/-- Well-formedness of the extracted pixel data: a non-empty image whose flat
buffer has the right length and holds bytes. -/
def RGBAImage.WF (img : RGBAImage) : Prop :=
  1 ≤ img.w ∧ 1 ≤ img.h ∧ img.pix.length = 4 * (img.w * img.h) ∧
    ∀ b ∈ img.pix, b ≤ 255

def nbPixels (img : RGBAImage) : ℕ := img.w * img.h

/-- `float64(data[k])` for a byte of the flat buffer. -/
def byteAt (img : RGBAImage) (k : ℕ) : ℚ := (img.pix.getD k 0 : ℚ)

/-- `a := float64(data[i*4+3]) / 255.0`. -/
def alphaAt (img : RGBAImage) (i : ℕ) : ℚ := byteAt img (i * 4 + 3) / 255

/-- `avgA`: total alpha mass `Σ a_i`. -/
def avgA (img : RGBAImage) : ℚ :=
  ∑ i ∈ Finset.range (nbPixels img), alphaAt img i

/-- The accumulated `avgR` before normalization: `Σ a/255*R`. -/
def sumR (img : RGBAImage) : ℚ :=
  ∑ i ∈ Finset.range (nbPixels img), alphaAt img i / 255 * byteAt img (i * 4)

def sumG (img : RGBAImage) : ℚ :=
  ∑ i ∈ Finset.range (nbPixels img), alphaAt img i / 255 * byteAt img (i * 4 + 1)

def sumB (img : RGBAImage) : ℚ :=
  ∑ i ∈ Finset.range (nbPixels img), alphaAt img i / 255 * byteAt img (i * 4 + 2)

/-- `avgR` after the conditional normalization `if avgA > 0 { avgR /= avgA }`. -/
def avgR (img : RGBAImage) : ℚ :=
  if 0 < avgA img then sumR img / avgA img else sumR img

def avgG (img : RGBAImage) : ℚ :=
  if 0 < avgA img then sumG img / avgA img else sumG img

def avgB (img : RGBAImage) : ℚ :=
  if 0 < avgA img then sumB img / avgA img else sumB img

/-- `hasAlpha := avgA < float64(nbPixels)`. -/
def hasAlphaE (img : RGBAImage) : Bool :=
  decide (avgA img < (nbPixels img : ℚ))

/-- `lLimit`: `5.0` if `hasAlpha` else `7.0`. -/
def lLimit (img : RGBAImage) : ℚ :=
  if hasAlphaE img then 5 else 7

/-- `isLandscape`: `1` if `w > h` else `0` (an `int` in the source). -/
def isLandscapeE (img : RGBAImage) : ℕ :=
  if img.h < img.w then 1 else 0

/-- `lx := imax(1, iround((lLimit*wf)/maxWH))` as the Go `int`. -/
def lxZ (img : RGBAImage) : ℤ :=
  imax 1 (iround (lLimit img * (img.w : ℚ) / max (img.w : ℚ) (img.h : ℚ)))

def lyZ (img : RGBAImage) : ℤ :=
  imax 1 (iround (lLimit img * (img.h : ℚ) / max (img.w : ℚ) (img.h : ℚ)))

/-- `lx` as a natural number (it is always `≥ 1`). -/
def lxE (img : RGBAImage) : ℕ := (lxZ img).toNat

def lyE (img : RGBAImage) : ℕ := (lyZ img).toNat

/-- Effective red of pixel `i`: `r := avgR*(1-a) + a/255*float64(data[i*4])`. -/
def effR (img : RGBAImage) (i : ℕ) : ℚ :=
  avgR img * (1 - alphaAt img i) + alphaAt img i / 255 * byteAt img (i * 4)

def effG (img : RGBAImage) (i : ℕ) : ℚ :=
  avgG img * (1 - alphaAt img i) + alphaAt img i / 255 * byteAt img (i * 4 + 1)

def effB (img : RGBAImage) (i : ℕ) : ℚ :=
  avgB img * (1 - alphaAt img i) + alphaAt img i / 255 * byteAt img (i * 4 + 2)

/-- `lChannel[i] = (r+g+b)/3`. -/
def lChannel (img : RGBAImage) : List ℚ :=
  (List.range (nbPixels img)).map fun i => (effR img i + effG img i + effB img i) / 3

/-- `pChannel[i] = (r+g)/2 - b`. -/
def pChannel (img : RGBAImage) : List ℚ :=
  (List.range (nbPixels img)).map fun i => (effR img i + effG img i) / 2 - effB img i

/-- `qChannel[i] = r - g`. -/
def qChannel (img : RGBAImage) : List ℚ :=
  (List.range (nbPixels img)).map fun i => effR img i - effG img i

/-- `aChannel[i] = a`. -/
def aChannel (img : RGBAImage) : List ℚ :=
  (List.range (nbPixels img)).map fun i => alphaAt img i

/-- `encodeChannel(lChannel, imax(lx, 3), imax(ly, 3))`. -/
def lTriple (c : ℕ → ℕ → ℕ → ℚ) (img : RGBAImage) : ℚ × List ℚ × ℚ :=
  encodeChannel c (lChannel img) img.w img.h (max (lxE img) 3) (max (lyE img) 3)

def pTriple (c : ℕ → ℕ → ℕ → ℚ) (img : RGBAImage) : ℚ × List ℚ × ℚ :=
  encodeChannel c (pChannel img) img.w img.h 3 3

def qTriple (c : ℕ → ℕ → ℕ → ℚ) (img : RGBAImage) : ℚ × List ℚ × ℚ :=
  encodeChannel c (qChannel img) img.w img.h 3 3

def aTriple (c : ℕ → ℕ → ℕ → ℚ) (img : RGBAImage) : ℚ × List ℚ × ℚ :=
  encodeChannel c (aChannel img) img.w img.h 5 5

def lDCE (c : ℕ → ℕ → ℕ → ℚ) (img : RGBAImage) : ℚ := (lTriple c img).1
def lACE (c : ℕ → ℕ → ℕ → ℚ) (img : RGBAImage) : List ℚ := (lTriple c img).2.1
def lScaleE (c : ℕ → ℕ → ℕ → ℚ) (img : RGBAImage) : ℚ := (lTriple c img).2.2
def pDCE (c : ℕ → ℕ → ℕ → ℚ) (img : RGBAImage) : ℚ := (pTriple c img).1
def pACE (c : ℕ → ℕ → ℕ → ℚ) (img : RGBAImage) : List ℚ := (pTriple c img).2.1
def pScaleE (c : ℕ → ℕ → ℕ → ℚ) (img : RGBAImage) : ℚ := (pTriple c img).2.2
def qDCE (c : ℕ → ℕ → ℕ → ℚ) (img : RGBAImage) : ℚ := (qTriple c img).1
def qACE (c : ℕ → ℕ → ℕ → ℚ) (img : RGBAImage) : List ℚ := (qTriple c img).2.1
def qScaleE (c : ℕ → ℕ → ℕ → ℚ) (img : RGBAImage) : ℚ := (qTriple c img).2.2
def aDCE (c : ℕ → ℕ → ℕ → ℚ) (img : RGBAImage) : ℚ := (aTriple c img).1
def aACE (c : ℕ → ℕ → ℕ → ℚ) (img : RGBAImage) : List ℚ := (aTriple c img).2.1
def aScaleE (c : ℕ → ℕ → ℕ → ℚ) (img : RGBAImage) : ℚ := (aTriple c img).2.2

/-- `nbAC := len(lAC) + len(pAC) + len(qAC)` plus `len(aAC)` when `hasAlpha`. -/
def nbACE (c : ℕ → ℕ → ℕ → ℚ) (img : RGBAImage) : ℕ :=
  (lACE c img).length + (pACE c img).length + (qACE c img).length +
    (if hasAlphaE img then (aACE c img).length else 0)

/-- `hashSize := 3 + 2 + (nbAC+1)/2` plus `1` when `hasAlpha`. -/
def hashSizeE (c : ℕ → ℕ → ℕ → ℚ) (img : RGBAImage) : ℕ :=
  3 + 2 + (nbACE c img + 1) / 2 + (if hasAlphaE img then 1 else 0)

/-- `start`: `6` when `hasAlpha` else `5`. -/
def startE (img : RGBAImage) : ℕ :=
  if hasAlphaE img then 6 else 5

/-- The flattened AC stream written by the nested loops over
`acs = [lAC, pAC, qAC]` plus `aAC` when `hasAlpha`. -/
def acSeqE (c : ℕ → ℕ → ℕ → ℚ) (img : RGBAImage) : List ℚ :=
  lACE c img ++ pACE c img ++ qACE c img ++
    (if hasAlphaE img then aACE c img else [])

/-- `header24`, assembled with `|` and `<<` on the Go `int`. -/
def header24E (c : ℕ → ℕ → ℕ → ℚ) (img : RGBAImage) : ℤ :=
  let base :=
    Int.lor
      (Int.lor
        (Int.lor (iround (63 * lDCE c img))
          (iround (31.5 + 31.5 * pDCE c img) <<< (6 : ℤ)))
        (iround (31.5 + 31.5 * qDCE c img) <<< (12 : ℤ)))
      (iround (31 * lScaleE c img) <<< (18 : ℤ))
  if hasAlphaE img then Int.lor base ((1 : ℤ) <<< (23 : ℤ)) else base

/-- `header16`: starts as `lx` (or `ly` when landscape), then `|`-ed fields. -/
def header16E (c : ℕ → ℕ → ℕ → ℚ) (img : RGBAImage) : ℤ :=
  Int.lor
    (Int.lor
      (Int.lor (if isLandscapeE img = 1 then lyZ img else lxZ img)
        (iround (63 * pScaleE c img) <<< (3 : ℤ)))
      (iround (63 * qScaleE c img) <<< (9 : ℤ)))
    ((isLandscapeE img : ℤ) <<< (15 : ℤ))

/-- The AC packing loop
`hash[start+(idx/2)] |= byte(iround(15.0*f) << ((idx & 1) * 4))`,
with `none` for the out-of-range write Go would panic on. -/
def packNibbles (hash : List ℕ) (start : ℕ) : ℕ → List ℚ → Option (List ℕ)
  | _, [] => some hash
  | idx, f :: fs =>
    let i := start + idx / 2
    if i < hash.length then
      match packNibbles
          (hash.set i
            (hash.getD i 0 |||
              byteOfInt (iround (15 * f) <<< (((idx &&& 1) * 4 : ℕ) : ℤ))))
          start (idx + 1) fs with
      | some out => some out
      | none => none
    else none

/-- `Encode` (`thumbhash.go`): builds the hash byte array. -/
def Encode (c : ℕ → ℕ → ℕ → ℚ) (img : RGBAImage) : Option (List ℕ) :=
  let base := List.replicate (hashSizeE c img) 0
  let b1 :=
    ((base.set 0 (byteOfInt (header24E c img))).set 1
        (byteOfInt (goShr (header24E c img) 8))).set 2
      (byteOfInt (goShr (header24E c img) 16))
  let b2 := (b1.set 3 (byteOfInt (header16E c img))).set 4
    (byteOfInt (goShr (header16E c img) 8))
  let b3 :=
    if hasAlphaE img then
      b2.set 5
        (byteOfInt
          (Int.lor (iround (15 * aDCE c img)) (iround (15 * aScaleE c img) <<< (4 : ℤ))))
    else b2
  packNibbles b3 (startE img) 0 (acSeqE c img)

/-! ### Decoder -/

/-- `header24 := int(hash[0]) | int(hash[1])<<8 | int(hash[2])<<16`
(bytes are non-negative, so the Go `int` arithmetic stays in `ℕ`). -/
def header24D (hash : List ℕ) : ℕ :=
  hash.getD 0 0 ||| hash.getD 1 0 <<< 8 ||| hash.getD 2 0 <<< 16

/-- `header16 := int(hash[3]) | int(hash[4])<<8`. -/
def header16D (hash : List ℕ) : ℕ :=
  hash.getD 3 0 ||| hash.getD 4 0 <<< 8

/-- `hasAlpha := (header24 >> 23) == 1`. -/
def hasAlphaD (hash : List ℕ) : Bool :=
  header24D hash >>> 23 == 1

/-- `isLandscape := (header16 >> 15) == 1`. -/
def isLandscapeD (hash : List ℕ) : Bool :=
  header16D hash >>> 15 == 1

/-- The stored 3-bit L count `int(header16 & 7)`. -/
def lCountD (hash : List ℕ) : ℕ :=
  header16D hash &&& 7

/-- Decoded `lx` (`imax` on non-negative `int`s is `max` on `ℕ`). -/
def lxD (hash : List ℕ) : ℕ :=
  if isLandscapeD hash then (if hasAlphaD hash then 5 else 7)
  else max 3 (lCountD hash)

/-- Decoded `ly`. -/
def lyD (hash : List ℕ) : ℕ :=
  if isLandscapeD hash then max 3 (lCountD hash)
  else (if hasAlphaD hash then 5 else 7)

/-- `start`: `6` when the decoded `hasAlpha` is set, else `5`. -/
def startD (hash : List ℕ) : ℕ :=
  if hasAlphaD hash then 6 else 5

/-- The parsed content of a hash (the local variables of `Decode` after the
reading phase). -/
structure DecHash where
  lDC : ℚ
  pDC : ℚ
  qDC : ℚ
  lScale : ℚ
  hasAlpha : Bool
  pScale : ℚ
  qScale : ℚ
  isLandscape : Bool
  lx : ℕ
  ly : ℕ
  aDC : ℚ
  aScale : ℚ
  lAC : List ℚ
  pAC : List ℚ
  qAC : List ℚ
  aAC : List ℚ

/-- `decodeChannel` of `Decode`: reads one nibble
`f := (float64((hash[hidx]>>((idx&1)*4))&15)/7.5 - 1.0) * scale`
per visited pair (the visited pairs are `pairList nx ny 1`), advancing `idx`;
`none` models `err = ErrInvalidHash` when `hidx >= len(hash)`. -/
def decodeChannel (hash : List ℕ) (start : ℕ) (scale : ℚ) :
    ℕ → List (ℕ × ℕ) → Option (List ℚ × ℕ)
  | idx, [] => some ([], idx)
  | idx, _ :: ps =>
    let hidx := start + idx / 2
    if hidx < hash.length then
      match decodeChannel hash start scale (idx + 1) ps with
      | some (fs, idx2) =>
        some (((((hash.getD hidx 0 >>> ((idx &&& 1) * 4)) &&& 15 : ℕ) : ℚ) / 7.5 - 1) * scale :: fs, idx2)
      | none => none
    else none

/-- `lDC := float64(header24&63) / 63.0`. -/
def lDCD (hash : List ℕ) : ℚ := ((header24D hash &&& 63 : ℕ) : ℚ) / 63

/-- `pDC := float64((header24>>6)&63)/31.5 - 1.0`. -/
def pDCD (hash : List ℕ) : ℚ := (((header24D hash >>> 6) &&& 63 : ℕ) : ℚ) / 31.5 - 1

def qDCD (hash : List ℕ) : ℚ := (((header24D hash >>> 12) &&& 63 : ℕ) : ℚ) / 31.5 - 1

/-- `lScale := float64((header24>>18)&31) / 31.0`. -/
def lScaleD (hash : List ℕ) : ℚ := (((header24D hash >>> 18) &&& 31 : ℕ) : ℚ) / 31

def pScaleD (hash : List ℕ) : ℚ := (((header16D hash >>> 3) &&& 63 : ℕ) : ℚ) / 63

def qScaleD (hash : List ℕ) : ℚ := (((header16D hash >>> 9) &&& 63 : ℕ) : ℚ) / 63

/-- `aDC`: `1.0` unless `hasAlpha`, then `float64(hash[5]&15) / 15.0`. -/
def aDCD (hash : List ℕ) : ℚ :=
  if hasAlphaD hash then ((hash.getD 5 0 &&& 15 : ℕ) : ℚ) / 15 else 1

/-- `aScale`: `0.0` unless `hasAlpha`, then `float64(hash[5]>>4) / 15.0`. -/
def aScaleD (hash : List ℕ) : ℚ :=
  if hasAlphaD hash then ((hash.getD 5 0 >>> 4 : ℕ) : ℚ) / 15 else 0

/-- The reading phase of `Decode` (`thumbhash.go`): header fields, grid sizes
and the four AC streams.  `none` is `ErrInvalidHash`.  In the source a set
`err` makes every later `decodeChannel` call fail immediately at the same
`idx`, and `err` is checked before any pixel is produced, so the sequential
early-exit chain below is equivalent. -/
def parseHash (hash : List ℕ) : Option DecHash :=
  if hash.length < 5 then none
  else if hasAlphaD hash ∧ hash.length < 6 then none
  else
    match decodeChannel hash (startD hash) (lScaleD hash) 0
        (pairList (lxD hash) (lyD hash) 1) with
    | none => none
    | some (lAC, idx1) =>
      match decodeChannel hash (startD hash) (pScaleD hash * 1.25) idx1
          (pairList 3 3 1) with
      | none => none
      | some (pAC, idx2) =>
        match decodeChannel hash (startD hash) (qScaleD hash * 1.25) idx2
            (pairList 3 3 1) with
        | none => none
        | some (qAC, idx3) =>
          if hasAlphaD hash then
            match decodeChannel hash (startD hash) (aScaleD hash) idx3
                (pairList 5 5 1) with
            | none => none
            | some (aAC, _) =>
              some ⟨lDCD hash, pDCD hash, qDCD hash, lScaleD hash,
                hasAlphaD hash, pScaleD hash, qScaleD hash,
                isLandscapeD hash, lxD hash, lyD hash, aDCD hash, aScaleD hash,
                lAC, pAC, qAC, aAC⟩
          else
            some ⟨lDCD hash, pDCD hash, qDCD hash, lScaleD hash,
              hasAlphaD hash, pScaleD hash, qScaleD hash,
              isLandscapeD hash, lxD hash, lyD hash, aDCD hash, aScaleD hash,
              lAC, pAC, qAC, []⟩

/-- Output dimensions: `ratio := lx/ly`; the larger side is 32, the other is
`iround` of `32/ratio` resp. `32*ratio` (non-negative, hence `toNat`). -/
def sizeD (H : DecHash) : ℕ × ℕ :=
  let r : ℚ := (H.lx : ℚ) / (H.ly : ℚ)
  if 1 < r then (32, (iround (32 / r)).toNat) else ((iround (32 * r)).toNat, 32)

/-- Reconstructed luminance at output pixel `(x, y)`:
`l := lDC` plus `lAC[j]*fx[cx]*fy2` over the triangular set, where
`fx[cx] = cos(π/w*(x+0.5)*cx)` and `fy2 = fy[cy]*2`.  The precomputed `fx`/`fy`
arrays are inlined (every access index is below the array length `n`). -/
def lValD (c : ℕ → ℕ → ℕ → ℚ) (H : DecHash) (w h x y : ℕ) : ℚ :=
  H.lDC + ((pairList H.lx H.ly 1).zip H.lAC).foldl
    (fun s pf => s + pf.2 * c w pf.1.1 x * (c h pf.1.2 y * 2)) 0

/-- Reconstructed P chroma; the source loop bound `cx < 3-cy` equals the
condition `cx*3 < 3*(3-cy)` of `pairList 3 3 1`. -/
def pValD (c : ℕ → ℕ → ℕ → ℚ) (H : DecHash) (w h x y : ℕ) : ℚ :=
  H.pDC + ((pairList 3 3 1).zip H.pAC).foldl
    (fun s pf => s + pf.2 * c w pf.1.1 x * (c h pf.1.2 y * 2)) 0

def qValD (c : ℕ → ℕ → ℕ → ℚ) (H : DecHash) (w h x y : ℕ) : ℚ :=
  H.qDC + ((pairList 3 3 1).zip H.qAC).foldl
    (fun s pf => s + pf.2 * c w pf.1.1 x * (c h pf.1.2 y * 2)) 0

/-- Reconstructed alpha: `a := aDC`, plus the 5×5 triangular sum only when
`hasAlpha` (the loop bound `cx < 5-cy` equals the `pairList 5 5 1` rule). -/
def aValD (c : ℕ → ℕ → ℕ → ℚ) (H : DecHash) (w h x y : ℕ) : ℚ :=
  H.aDC +
    (if H.hasAlpha then
      ((pairList 5 5 1).zip H.aAC).foldl
        (fun s pf => s + pf.2 * c w pf.1.1 x * (c h pf.1.2 y * 2)) 0
    else 0)

/-- The four float values passed to `byte(...)` for one output pixel:
`b := l - 2/3*p`, `r := (3*l - b + q)/2`, `g := r - q`,
`af := max(0, min(1, a))`, channels `max(0, min(1, v)*255*af)`, alpha `af*255`. -/
def pixelFloats (c : ℕ → ℕ → ℕ → ℚ) (H : DecHash) (w h x y : ℕ) :
    ℚ × ℚ × ℚ × ℚ :=
  let l := lValD c H w h x y
  let p := pValD c H w h x y
  let q := qValD c H w h x y
  let a := aValD c H w h x y
  let b := l - 2 / 3 * p
  let r := (3 * l - b + q) / 2
  let g := r - q
  let af := max 0 (min 1 a)
  (max 0 (min 1 r * 255 * af), max 0 (min 1 g * 255 * af),
    max 0 (min 1 b * 255 * af), af * 255)

/-- Go's conversion `byte(f)` of a `float64`: truncation toward zero.  All
values converted by `Decode` are non-negative (proved below), so this is the
floor. -/
def byteOfFloat (x : ℚ) : ℕ :=
  (Int.floor x).toNat

/-- The four RGBA bytes written for output pixel `(x, y)`. -/
def pixelBytes (c : ℕ → ℕ → ℕ → ℚ) (H : DecHash) (w h x y : ℕ) : List ℕ :=
  [byteOfFloat (pixelFloats c H w h x y).1,
   byteOfFloat (pixelFloats c H w h x y).2.1,
   byteOfFloat (pixelFloats c H w h x y).2.2.1,
   byteOfFloat (pixelFloats c H w h x y).2.2.2]

/-- The pixel reconstruction loop of `Decode`: returns `(w, h, pix)` with the
flat RGBA buffer written in row-major order at `idx = 4*(y*w+x)`. -/
def renderImage (c : ℕ → ℕ → ℕ → ℚ) (H : DecHash) : ℕ × ℕ × List ℕ :=
  ((sizeD H).1, (sizeD H).2,
    (List.range (sizeD H).2).flatMap fun y =>
      (List.range (sizeD H).1).flatMap fun x =>
        pixelBytes c H (sizeD H).1 (sizeD H).2 x y)

/-- `Decode` (`thumbhash.go`): `none` models `ErrInvalidHash` (the single
error value; on failure the source returns `nil` for the image, i.e. no
partial pixel buffer). -/
def Decode (c : ℕ → ℕ → ℕ → ℚ) (hash : List ℕ) : Option (ℕ × ℕ × List ℕ) :=
  (parseHash hash).map (renderImage c)

/-- Total number of AC nibbles the decoder wants to read for a hash. -/
def totalNibblesD (hash : List ℕ) : ℕ :=
  (pairList (lxD hash) (lyD hash) 1).length + (pairList 3 3 1).length +
    (pairList 3 3 1).length +
    (if hasAlphaD hash then (pairList 5 5 1).length else 0)

/-- The clamped reconstructed alpha `af := max(0, min(1, a))` of output pixel
`(x, y)`, recovered from the raw hash bytes. -/
def clampedAlphaD (c : ℕ → ℕ → ℕ → ℚ) (hash : List ℕ) (x y : ℕ) : ℚ :=
  match parseHash hash with
  | none => 0
  | some H => max 0 (min 1 (aValD c H (sizeD H).1 (sizeD H).2 x y))

/-! ### Concrete instances used as test inputs -/

/-- The constant cosine oracle `1` (the value of every `cos` at frequency 0;
a valid bounded instantiation of the abstract basis). -/
def oneC : ℕ → ℕ → ℕ → ℚ := fun _ _ _ => 1

/-- A 1×1 opaque pixel. -/
def img1 : RGBAImage := ⟨1, 1, [10, 20, 30, 255]⟩

/-- A 1×1 half-transparent pixel. -/
def imgT : RGBAImage := ⟨1, 1, [10, 20, 30, 128]⟩

/-- A 1×1 opaque pure-blue pixel. -/
def imgBlue : RGBAImage := ⟨1, 1, [0, 0, 255, 255]⟩

/-- A hand-built 23-byte hash: HasAlpha set, stored L count 0 (→ `lx=3`,
`ly=5`), all scales 0 except `AScale = 1/15`, and all 14 alpha AC nibbles
equal to 8. -/
def hashT : List ℕ :=
  [0, 0, 128, 0, 0, 16, 0, 0, 0, 0, 0, 0, 0, 0, 0, 0,
   136, 136, 136, 136, 136, 136, 136]

/-- A 17-byte all-zero hash (a valid alpha-less hash: `lx=3`, `ly=7`,
24 AC nibbles ending in byte 16). -/
def hash17 : List ℕ := List.replicate 17 0

/-- The parsed content of `hash17`; the parse is total here by computation
(only natural-number control flow is involved). -/
def H17 : DecHash := (parseHash hash17).get (by decide)

/-- The parsed content of `hashT`, written out literally. -/
def HT : DecHash :=
  ⟨0, -1, -1, 0, true, 0, 0, false, 3, 5, 0, 1/15,
   [0, 0, 0, 0, 0, 0, 0, 0, 0, 0], [0, 0, 0, 0, 0], [0, 0, 0, 0, 0],
   [1/225, 1/225, 1/225, 1/225, 1/225, 1/225, 1/225, 1/225, 1/225, 1/225,
    1/225, 1/225, 1/225, 1/225]⟩

/-- The decoded image of `hashT` (decoding succeeds by computation). -/
def tT : ℕ × ℕ × List ℕ := (Decode oneC hashT).get (by decide)

/-! ### Basic lemmas: rounding, casts, bit arithmetic -/

theorem iround_of_nonneg {x : ℚ} (h : 0 ≤ x) : iround x = Int.floor (x + 1/2) := by
  simp [iround, h]

theorem iround_mem {x : ℚ} {m : ℤ} (h0 : 0 ≤ x) (h1 : x ≤ (m : ℚ)) :
    0 ≤ iround x ∧ iround x ≤ m := by
  rw [iround_of_nonneg h0]
  constructor
  · exact Int.le_floor.mpr (by push_cast; linarith)
  · have : Int.floor (x + 1/2) < m + 1 := Int.floor_lt.mpr (by push_cast; linarith)
    omega

theorem iround_natCast (n : ℕ) : iround (n : ℚ) = n := by
  rw [iround_of_nonneg (by positivity)]
  exact Int.floor_eq_iff.mpr ⟨by push_cast; linarith, by push_cast; linarith⟩

theorem byteOfInt_natCast (n : ℕ) : byteOfInt (n : ℤ) = n % 256 := by
  unfold byteOfInt
  rw [show ((n : ℤ) % 256) = ((n % 256 : ℕ) : ℤ) by push_cast; ring_nf]
  exact Int.toNat_natCast _

theorem goShr_natCast (n k : ℕ) : goShr (n : ℤ) k = ((n / 2 ^ k : ℕ) : ℤ) := by
  unfold goShr
  rw [Int.fdiv_eq_ediv _ (by positivity)]
  rw [show ((2 : ℤ) ^ k) = ((2 ^ k : ℕ) : ℤ) by push_cast; ring]
  exact (Int.natCast_div n (2 ^ k)).symm

theorem intLor_natCast (a b : ℕ) : Int.lor (a : ℤ) (b : ℤ) = ((a ||| b : ℕ) : ℤ) := rfl

theorem intShl_natCast (a k : ℕ) : (a : ℤ) <<< ((k : ℕ) : ℤ) = ((a <<< k : ℕ) : ℤ) :=
  Int.shiftLeft_coe_nat a k

theorem intToNat_lor_shl (a b k : ℕ) :
    Int.lor (a : ℤ) ((b : ℤ) <<< ((k : ℕ) : ℤ)) = ((a ||| b <<< k : ℕ) : ℤ) := by
  rw [intShl_natCast, intLor_natCast]

/-- `x &&& (2^k - 1) = x % 2^k`. -/
theorem and_mask (x k : ℕ) : x &&& (2 ^ k - 1) = x % 2 ^ k := by
  apply Nat.eq_of_testBit_eq
  intro i
  rw [Nat.testBit_and, Nat.testBit_two_pow_sub_one, Nat.testBit_mod_two_pow]
  cases Nat.decLt i k <;> simp_all

theorem and63 (x : ℕ) : x &&& 63 = x % 64 := by
  have h := and_mask x 6; norm_num at h; exact h

theorem and31 (x : ℕ) : x &&& 31 = x % 32 := by
  have h := and_mask x 5; norm_num at h; exact h

theorem and15 (x : ℕ) : x &&& 15 = x % 16 := by
  have h := and_mask x 4; norm_num at h; exact h

theorem and7 (x : ℕ) : x &&& 7 = x % 8 := by
  have h := and_mask x 3; norm_num at h; exact h

/-- Disjoint `or` is addition: `a ||| (b <<< k) = a + b * 2^k` when `a < 2^k`. -/
theorem lor_shift_add {a : ℕ} (b : ℕ) {k : ℕ} (h : a < 2 ^ k) :
    a ||| b <<< k = a + b * 2 ^ k := by
  apply Nat.eq_of_testBit_eq
  intro i
  rw [Nat.testBit_lor, Nat.testBit_shiftLeft, Nat.add_comm, Nat.mul_comm,
    Nat.testBit_mul_pow_two_add b h]
  by_cases hi : i < k
  · simp [hi, Nat.not_le.mpr hi]
  · simp [hi, Nat.le_of_not_lt hi]
    intro hb
    exact absurd (Nat.testBit_lt_two_pow (lt_of_lt_of_le h (Nat.pow_le_pow_right (by norm_num) (Nat.le_of_not_lt hi)))) (by simpa using hb)

theorem getD_le_of_forall {l : List ℕ} (h : ∀ b ∈ l, b ≤ 255) (k : ℕ) :
    l.getD k 0 ≤ 255 := by
  by_cases hk : k < l.length
  · rw [List.getD_eq_getElem l 0 hk]
    exact h _ (List.getElem_mem hk)
  · rw [List.getD_eq_default l 0 (Nat.le_of_not_lt hk)]
    omega

/-! ### Structure of the triangular pair lists -/

/-- The encoder's loop visits `(0,0)` first and then exactly the pairs the
decoder's loop visits (grids used by the code always satisfy these bounds). -/
theorem pairList_zero_eq_cons {nx ny : ℕ} (hx3 : 3 ≤ nx) (hx7 : nx ≤ 7)
    (hy3 : 3 ≤ ny) (hy7 : ny ≤ 7) :
    pairList nx ny 0 = (0, 0) :: pairList nx ny 1 := by
  interval_cases nx <;> interval_cases ny <;> decide

theorem pairList_length_succ {nx ny : ℕ} (hx3 : 3 ≤ nx) (hx7 : nx ≤ 7)
    (hy3 : 3 ≤ ny) (hy7 : ny ≤ 7) :
    (pairList nx ny 0).length = (pairList nx ny 1).length + 1 := by
  rw [pairList_zero_eq_cons hx3 hx7 hy3 hy7, List.length_cons]

/-- Filtering the DC term out of the encoder's visit list leaves exactly the
decoder's visit list. -/
theorem pairList_filter_ac {nx ny : ℕ} (hx3 : 3 ≤ nx) (hx7 : nx ≤ 7)
    (hy3 : 3 ≤ ny) (hy7 : ny ≤ 7) :
    ((pairList nx ny 0).filter fun p => decide (0 < p.1 ∨ 0 < p.2)) =
      pairList nx ny 1 := by
  interval_cases nx <;> interval_cases ny <;> decide

/-! ### Behaviour of the nibble reader -/

theorem decodeChannel_some {hash : List ℕ} {start : ℕ} {scale : ℚ}
    (ps : List (ℕ × ℕ)) (idx : ℕ)
    (h : ∀ j < ps.length, start + (idx + j) / 2 < hash.length) :
    ∃ fs, decodeChannel hash start scale idx ps = some (fs, idx + ps.length) ∧
      fs.length = ps.length ∧
      ∀ f ∈ fs, ∃ n : ℕ, n ≤ 15 ∧ f = ((n : ℚ) / 7.5 - 1) * scale := by
  induction ps generalizing idx with
  | nil => exact ⟨[], rfl, rfl, by simp⟩
  | cons p ps ih =>
    have h0 : start + idx / 2 < hash.length := by
      have := h 0 (by simp)
      simpa using this
    obtain ⟨fs, hfs, hlen, hval⟩ := ih (idx + 1)
      (fun j hj => by
        have := h (j + 1) (by simpa using Nat.succ_lt_succ hj)
        omega)
    refine ⟨((((hash.getD (start + idx / 2) 0 >>> ((idx &&& 1) * 4)) &&& 15 : ℕ) : ℚ) /
        7.5 - 1) * scale :: fs, ?_, ?_, ?_⟩
    · show decodeChannel hash start scale idx (p :: ps) = _
      rw [decodeChannel, if_pos h0, hfs]
      simp only [List.length_cons]
      congr 2
      omega
    · simp [hlen]
    · intro f hf
      rcases List.mem_cons.mp hf with rfl | hmem
      · refine ⟨(hash.getD (start + idx / 2) 0 >>> ((idx &&& 1) * 4)) &&& 15, ?_, rfl⟩
        rw [and15]
        omega
      · exact hval f hmem

theorem decodeChannel_none_iff {hash : List ℕ} {start : ℕ} {scale : ℚ}
    (ps : List (ℕ × ℕ)) (idx : ℕ) :
    decodeChannel hash start scale idx ps = none ↔
      ∃ j < ps.length, hash.length ≤ start + (idx + j) / 2 := by
  induction ps generalizing idx with
  | nil => simp [decodeChannel]
  | cons p ps ih =>
    rw [decodeChannel]
    by_cases h0 : start + idx / 2 < hash.length
    · rw [if_pos h0]
      constructor
      · intro hn
        rcases he : decodeChannel hash start scale (idx + 1) ps with _ | fi
        · obtain ⟨j, hj, hle⟩ := (ih (idx + 1)).mp he
          exact ⟨j + 1, by simpa using Nat.succ_lt_succ hj, by
            have : idx + 1 + j = idx + (j + 1) := by omega
            rwa [this] at hle⟩
        · rw [he] at hn
          obtain ⟨fs, idx2⟩ := fi
          simp at hn
      · rintro ⟨j, hj, hle⟩
        have hj0 : j ≠ 0 := by
          rintro rfl
          simp at hle
          omega
        have : decodeChannel hash start scale (idx + 1) ps = none := by
          rw [ih (idx + 1)]
          exact ⟨j - 1, by simp at hj; omega, by
            have : idx + 1 + (j - 1) = idx + j := by omega
            rw [this]; exact hle⟩
        rw [this]
    · rw [if_neg h0]
      simp only [true_iff]
      exact ⟨0, by simp, by simpa using Nat.le_of_not_lt h0⟩

/-! ### Behaviour of the nibble packer -/

/-- Invariant of the packing loop: every byte strictly beyond the one being
written is still zero, and the byte being written holds only the nibbles
already written (below the current shift position). -/
def PackInv (hash : List ℕ) (start idx : ℕ) : Prop :=
  (∀ m, start + idx / 2 < m → m < hash.length → hash.getD m 0 = 0) ∧
    hash.getD (start + idx / 2) 0 < 2 ^ ((idx &&& 1) * 4)

theorem and_one_cases (idx : ℕ) : idx &&& 1 = idx % 2 := Nat.and_one_is_mod idx

/-- Full characterization of a successful packing run. -/
theorem packNibbles_spec (fs : List ℚ) (hash : List ℕ) (start idx : ℕ)
    (hroom : ∀ j < fs.length, start + (idx + j) / 2 < hash.length)
    (hran : ∀ f ∈ fs, 0 ≤ iround (15 * f) ∧ iround (15 * f) ≤ 15)
    (hinv : PackInv hash start idx) :
    ∃ out, packNibbles hash start idx fs = some out ∧
      out.length = hash.length ∧
      (∀ m, m < start + idx / 2 → out.getD m 0 = hash.getD m 0) ∧
      (out.getD (start + idx / 2) 0 % 2 ^ ((idx &&& 1) * 4) =
        hash.getD (start + idx / 2) 0) ∧
      ∀ j < fs.length,
        (out.getD (start + (idx + j) / 2) 0 >>> (((idx + j) &&& 1) * 4)) &&& 15 =
          (iround (15 * fs.getD j 0)).toNat := by
  induction fs generalizing hash idx with
  | nil =>
    refine ⟨hash, rfl, rfl, fun _ _ => rfl, ?_, by simp⟩
    exact Nat.mod_eq_of_lt hinv.2
  | cons f fs ih =>
    have hcur : start + idx / 2 < hash.length := by
      have := hroom 0 (by simp)
      simpa using this
    set v : ℕ := (iround (15 * f)).toNat with hv
    have hv15 : v ≤ 15 := by
      have := (hran f (by simp)).2
      omega
    have hvz : iround (15 * f) = (v : ℤ) := by
      have := (hran f (by simp)).1
      omega
    set old := hash.getD (start + idx / 2) 0 with hold
    set hash2 := hash.set (start + idx / 2)
      (old ||| byteOfInt (iround (15 * f) <<< (((idx &&& 1) * 4 : ℕ) : ℤ))) with hh2
    have hlen2 : hash2.length = hash.length := by
      rw [hh2]; exact List.length_set ..
    have hand01 : idx &&& 1 = 0 ∨ idx &&& 1 = 1 := by
      rw [and_one_cases]; exact Nat.mod_two_eq_zero_or_one idx
    have hbyte : byteOfInt (iround (15 * f) <<< (((idx &&& 1) * 4 : ℕ) : ℤ)) =
        v <<< ((idx &&& 1) * 4) := by
      rw [hvz, intShl_natCast, byteOfInt_natCast]
      apply Nat.mod_eq_of_lt
      rw [Nat.shiftLeft_eq]
      rcases hand01 with h | h <;> rw [h] <;> norm_num <;> omega
    have hnew : hash2.getD (start + idx / 2) 0 = old ||| v <<< ((idx &&& 1) * 4) := by
      rw [hh2, List.getD_eq_getElem?_getD, List.getElem?_set_self (by omega), hbyte]
      rfl
    have hother : ∀ m, m ≠ start + idx / 2 → hash2.getD m 0 = hash.getD m 0 := by
      intro m hm
      rw [hh2, List.getD_eq_getElem?_getD, List.getElem?_set_ne (Ne.symm hm),
        ← List.getD_eq_getElem?_getD]
    rcases hand01 with hand | hand
    · -- idx even: low nibble of a fresh zero byte
      have hold0 : old = 0 := by
        have h2 := hinv.2
        rw [hand] at h2
        simpa only [Nat.zero_mul, pow_zero, Nat.lt_one_iff] using h2
      have hnew' : hash2.getD (start + idx / 2) 0 = v := by
        rw [hnew, hold0, hand]
        simp [Nat.shiftLeft_eq]
      have hdiv : (idx + 1) / 2 = idx / 2 := by
        rw [and_one_cases] at hand; omega
      have hand1 : (idx + 1) &&& 1 = 1 := by
        rw [and_one_cases] at hand ⊢; omega
      obtain ⟨out, hpk, hl, hpre, hcurlow, hext⟩ := ih hash2 (idx + 1)
        (fun j hj => by
          have := hroom (j + 1) (by simpa using Nat.succ_lt_succ hj)
          rw [hlen2]
          omega)
        (fun g hg => hran g (by simp [hg]))
        (by
          constructor
          · intro m hm hml
            rw [hdiv] at hm
            rw [hother m (by omega)]
            exact hinv.1 m hm (by rwa [hlen2] at hml)
          · rw [hdiv, hnew', hand1]
            rw [show ((2:ℕ) ^ (1 * 4)) = 16 from by norm_num]
            omega)
      refine ⟨out, ?_, by rw [hl, hlen2], ?_, ?_, ?_⟩
      · rw [packNibbles, if_pos hcur, ← hold, ← hh2, hpk]
      · intro m hm
        rw [hpre m (by omega), hother m (by omega)]
      · rw [hand]
        simp only [Nat.zero_mul, pow_zero, Nat.mod_one]
        omega
      · intro j hj
        rcases Nat.eq_zero_or_pos j with rfl | hjpos
        · have h16 : out.getD (start + idx / 2) 0 % 16 = v := by
            have hcl := hcurlow
            rw [hdiv, hand1, hnew'] at hcl
            rw [show ((2:ℕ) ^ (1 * 4)) = 16 from by norm_num] at hcl
            exact hcl
          simp only [Nat.add_zero]
          rw [hand, Nat.zero_mul, Nat.shiftRight_zero, and15, List.getD_cons_zero, ← hv]
          exact h16
        · have hx := hext (j - 1) (by simp at hj ⊢; omega)
          have harith : idx + 1 + (j - 1) = idx + j := by omega
          rw [harith] at hx
          rw [hx]
          cases j with
          | zero => omega
          | succ j2 => simp
    · -- idx odd: high nibble, low nibble already in place
      have hold16 : old < 16 := by
        have h2 := hinv.2
        rw [hand] at h2
        rw [show ((2:ℕ) ^ (1 * 4)) = 16 from by norm_num] at h2
        exact h2
      have hnew' : hash2.getD (start + idx / 2) 0 = old + 16 * v := by
        rw [hnew, hand]
        rw [show ((1 * 4 : ℕ)) = 4 by norm_num]
        rw [lor_shift_add v (by rw [show ((2:ℕ) ^ 4) = 16 from by norm_num]; omega)]
        ring_nf
      have hdiv : (idx + 1) / 2 = idx / 2 + 1 := by
        rw [and_one_cases] at hand; omega
      have hand1 : (idx + 1) &&& 1 = 0 := by
        rw [and_one_cases] at hand ⊢; omega
      obtain ⟨out, hpk, hl, hpre, hcurlow, hext⟩ := ih hash2 (idx + 1)
        (fun j hj => by
          have := hroom (j + 1) (by simpa using Nat.succ_lt_succ hj)
          rw [hlen2]
          omega)
        (fun g hg => hran g (by simp [hg]))
        (by
          constructor
          · intro m hm hml
            rw [hdiv] at hm
            rw [hother m (by omega)]
            exact hinv.1 m (by omega) (by rwa [hlen2] at hml)
          · rw [hdiv, hand1]
            simp only [Nat.zero_mul, pow_zero, Nat.lt_one_iff]
            by_cases hnext : start + (idx / 2 + 1) < hash2.length
            · rw [hother _ (by omega)]
              exact hinv.1 _ (by omega) (by rwa [hlen2] at hnext)
            · rw [List.getD_eq_default _ _ (by omega)])
      have hfin : out.getD (start + idx / 2) 0 = old + 16 * v := by
        rw [hpre _ (by rw [hdiv]; omega), hnew']
      refine ⟨out, ?_, by rw [hl, hlen2], ?_, ?_, ?_⟩
      · rw [packNibbles, if_pos hcur, ← hold, ← hh2, hpk]
      · intro m hm
        rw [hpre m (by rw [hdiv]; omega), hother m (by omega)]
      · rw [hand, hfin]
        rw [show ((2:ℕ) ^ (1 * 4)) = 16 from by norm_num]
        omega
      · intro j hj
        rcases Nat.eq_zero_or_pos j with rfl | hjpos
        · simp only [Nat.add_zero]
          rw [hand, Nat.one_mul, hfin, Nat.shiftRight_eq_div_pow, and15,
            List.getD_cons_zero, ← hv]
          have hdv : (old + 16 * v) / 2 ^ 4 = v := by omega
          rw [hdv]
          exact Nat.mod_eq_of_lt (by omega)
        · have hx := hext (j - 1) (by simp at hj ⊢; omega)
          have harith : idx + 1 + (j - 1) = idx + j := by omega
          rw [harith] at hx
          rw [hx]
          cases j with
          | zero => omega
          | succ j2 => simp

/-! ### Numeric bounds -/

theorem le_foldl_max (l : List ℚ) (a : ℚ) :
    a ≤ l.foldl (fun s f => max s |f|) a := by
  induction l generalizing a with
  | nil => exact le_refl a
  | cons x l ih => exact le_trans (le_max_left a |x|) (ih (max a |x|))

theorem foldl_max_le {l : List ℚ} {B : ℚ} (h : ∀ f ∈ l, |f| ≤ B) {a : ℚ}
    (ha : a ≤ B) : l.foldl (fun s f => max s |f|) a ≤ B := by
  induction l generalizing a with
  | nil => exact ha
  | cons x l ih =>
    exact ih (fun f hf => h f (by simp [hf])) (max_le ha (h x (by simp)))

theorem mem_le_foldl_max {l : List ℚ} {f : ℚ} (hf : f ∈ l) (a : ℚ) :
    |f| ≤ l.foldl (fun s g => max s |g|) a := by
  induction l generalizing a with
  | nil => cases hf
  | cons x l ih =>
    rcases List.mem_cons.mp hf with rfl | hmem
    · exact le_trans (le_max_right a |f|) (le_foldl_max l (max a |f|))
    · exact ih hmem (max a |x|)

theorem foldl_max_nonneg (l : List ℚ) :
    0 ≤ l.foldl (fun s f => max s |f|) 0 := le_foldl_max l 0

theorem getD_mem01 {ch : List ℚ} (h : ∀ v ∈ ch, 0 ≤ v ∧ v ≤ 1) (i : ℕ) :
    0 ≤ ch.getD i 0 ∧ ch.getD i 0 ≤ 1 := by
  by_cases hk : i < ch.length
  · rw [List.getD_eq_getElem ch 0 hk]
    exact h _ (List.getElem_mem hk)
  · rw [List.getD_eq_default ch 0 (Nat.le_of_not_lt hk)]
    norm_num

theorem getD_abs_le {ch : List ℚ} (h : ∀ v ∈ ch, |v| ≤ 1) (i : ℕ) :
    |ch.getD i 0| ≤ 1 := by
  by_cases hk : i < ch.length
  · rw [List.getD_eq_getElem ch 0 hk]
    exact h _ (List.getElem_mem hk)
  · rw [List.getD_eq_default ch 0 (Nat.le_of_not_lt hk)]
    norm_num

/-- Any DCT coefficient of a channel with values in `[-1, 1]` lies in
`[-1, 1]` (the cosines are bounded by `1`). -/
theorem dct_abs_le {c : ℕ → ℕ → ℕ → ℚ} {ch : List ℚ} {w h : ℕ}
    (hch : ∀ v ∈ ch, |v| ≤ 1) (hcb : ∀ s f p, |c s f p| ≤ 1)
    (hw : 1 ≤ w) (hh : 1 ≤ h) (cx cy : ℕ) :
    |dct c ch w h cx cy| ≤ 1 := by
  unfold dct
  rw [abs_div]
  have hwh : (0 : ℚ) < (w : ℚ) * (h : ℚ) := by
    have hw1 : (1 : ℚ) ≤ (w : ℚ) := by exact_mod_cast hw
    have hh1 : (1 : ℚ) ≤ (h : ℚ) := by exact_mod_cast hh
    nlinarith
  rw [abs_of_pos hwh]
  rw [div_le_one hwh]
  calc |∑ y ∈ Finset.range h, ∑ x ∈ Finset.range w,
          ch.getD (x + y * w) 0 * c w cx x * c h cy y|
      ≤ ∑ y ∈ Finset.range h, |∑ x ∈ Finset.range w,
          ch.getD (x + y * w) 0 * c w cx x * c h cy y| :=
        Finset.abs_sum_le_sum_abs _ _
    _ ≤ ∑ y ∈ Finset.range h, ∑ x ∈ Finset.range w,
          |ch.getD (x + y * w) 0 * c w cx x * c h cy y| :=
        Finset.sum_le_sum fun y _ => Finset.abs_sum_le_sum_abs _ _
    _ ≤ ∑ y ∈ Finset.range h, ∑ x ∈ Finset.range w, (1 : ℚ) := by
        refine Finset.sum_le_sum fun y _ => Finset.sum_le_sum fun x _ => ?_
        rw [abs_mul, abs_mul]
        have h1 := getD_abs_le hch (x + y * w)
        have h2 := hcb w cx x
        have h3 := hcb h cy y
        have p2 : (0:ℚ) ≤ |c w cx x| := abs_nonneg _
        have p3 : (0:ℚ) ≤ |c h cy y| := abs_nonneg _
        exact mul_le_one₀ (mul_le_one₀ h1 p2 h2) p3 h3
    _ = (h : ℚ) * (w : ℚ) := by
        rw [Finset.sum_const, Finset.sum_const]
        simp [mul_comm]
    _ ≤ (w : ℚ) * (h : ℚ) := le_of_eq (mul_comm _ _)

/-- The DC coefficient of a channel with values in `[0, 1]` lies in `[0, 1]`
when the zero-frequency cosine is exactly `1`. -/
theorem dct_dc_mem {c : ℕ → ℕ → ℕ → ℚ} {ch : List ℚ} {w h : ℕ}
    (hc0 : ∀ s p, c s 0 p = 1) (hch : ∀ v ∈ ch, 0 ≤ v ∧ v ≤ 1)
    (hw : 1 ≤ w) (hh : 1 ≤ h) :
    0 ≤ dct c ch w h 0 0 ∧ dct c ch w h 0 0 ≤ 1 := by
  unfold dct
  have hwh : (0 : ℚ) < (w : ℚ) * (h : ℚ) := by
    have hw1 : (1 : ℚ) ≤ (w : ℚ) := by exact_mod_cast hw
    have hh1 : (1 : ℚ) ≤ (h : ℚ) := by exact_mod_cast hh
    nlinarith
  have hsum : ∀ y x : ℕ, ch.getD (x + y * w) 0 * c w 0 x * c h 0 y =
      ch.getD (x + y * w) 0 := by
    intro y x
    rw [hc0, hc0, mul_one, mul_one]
  constructor
  · apply div_nonneg _ (le_of_lt hwh)
    refine Finset.sum_nonneg fun y _ => Finset.sum_nonneg fun x _ => ?_
    rw [hsum]
    exact (getD_mem01 hch _).1
  · rw [div_le_one hwh]
    calc ∑ y ∈ Finset.range h, ∑ x ∈ Finset.range w,
            ch.getD (x + y * w) 0 * c w 0 x * c h 0 y
        ≤ ∑ y ∈ Finset.range h, ∑ x ∈ Finset.range w, (1 : ℚ) := by
          refine Finset.sum_le_sum fun y _ => Finset.sum_le_sum fun x _ => ?_
          rw [hsum]
          exact (getD_mem01 hch _).2
      _ = (h : ℚ) * (w : ℚ) := by
          rw [Finset.sum_const, Finset.sum_const]
          simp [mul_comm]
      _ ≤ (w : ℚ) * (h : ℚ) := le_of_eq (mul_comm _ _)

/-- Every remapped AC value of `encodeChannel` quantizes to a nibble in
`[0, 15]`: when `scale > 0` the remap lands in `[0, 1]`, and when
`scale = 0` every raw AC value is `0`. -/
theorem encodeChannel_ac_nibble (c : ℕ → ℕ → ℕ → ℚ) (ch : List ℚ)
    (w h nx ny : ℕ) :
    ∀ f ∈ (encodeChannel c ch w h nx ny).2.1,
      0 ≤ iround (15 * f) ∧ iround (15 * f) ≤ 15 := by
  intro f hf
  unfold encodeChannel at hf
  simp only at hf
  set acRaw := ((pairList nx ny 0).filter fun p => decide (0 < p.1 ∨ 0 < p.2)).map
    (fun p => dct c ch w h p.1 p.2) with hacRaw
  set scale := acRaw.foldl (fun s f => max s |f|) 0 with hscale
  have hmem01 : 0 ≤ f ∧ f ≤ 1 := by
    by_cases hpos : 0 < scale
    · rw [if_pos hpos] at hf
      rw [List.mem_map] at hf
      obtain ⟨g, hg, rfl⟩ := hf
      have hgs : |g| ≤ scale := mem_le_foldl_max hg 0
      have habs2 : |0.5 / scale * g| ≤ 0.5 := by
        rw [abs_mul, abs_of_pos (show (0:ℚ) < 0.5 / scale by positivity)]
        calc 0.5 / scale * |g| ≤ 0.5 / scale * scale :=
              mul_le_mul_of_nonneg_left hgs (by positivity)
          _ = 0.5 := by field_simp
      have := abs_le.mp habs2
      constructor
      · linarith [this.1]
      · linarith [this.2]
    · rw [if_neg hpos] at hf
      have hsn : scale = 0 := le_antisymm (le_of_not_lt hpos) (foldl_max_nonneg _)
      have : |f| ≤ scale := mem_le_foldl_max hf 0
      rw [hsn] at this
      have : f = 0 := abs_nonpos_iff.mp this
      simp [this]
  have h15 : 0 ≤ 15 * f ∧ 15 * f ≤ (15 : ℚ) := ⟨by linarith [hmem01.1], by linarith [hmem01.2]⟩
  have := iround_mem h15.1 (by exact_mod_cast h15.2 : 15 * f ≤ ((15 : ℤ) : ℚ))
  exact this

/-! ### Bounds on the colour conversion -/

theorem byteAt_nonneg (img : RGBAImage) (k : ℕ) : 0 ≤ byteAt img k :=
  Nat.cast_nonneg _

theorem byteAt_le {img : RGBAImage} (hb : ∀ b ∈ img.pix, b ≤ 255) (k : ℕ) :
    byteAt img k ≤ 255 := by
  unfold byteAt
  exact_mod_cast getD_le_of_forall hb k

theorem alphaAt_mem {img : RGBAImage} (hb : ∀ b ∈ img.pix, b ≤ 255) (i : ℕ) :
    0 ≤ alphaAt img i ∧ alphaAt img i ≤ 1 := by
  unfold alphaAt
  constructor
  · exact div_nonneg (byteAt_nonneg img _) (by norm_num)
  · rw [div_le_one (by norm_num)]
    exact byteAt_le hb _

/-- Each alpha-weighted accumulation term is between `0` and the pixel's
alpha. -/
theorem accum_term_mem {img : RGBAImage} (hb : ∀ b ∈ img.pix, b ≤ 255)
    (i k : ℕ) :
    0 ≤ alphaAt img i / 255 * byteAt img k ∧
      alphaAt img i / 255 * byteAt img k ≤ alphaAt img i := by
  have ha := alphaAt_mem hb i
  have hbk := byteAt_le hb k
  have hbn := byteAt_nonneg img k
  constructor
  · exact mul_nonneg (div_nonneg ha.1 (by norm_num)) hbn
  · calc alphaAt img i / 255 * byteAt img k ≤ alphaAt img i / 255 * 255 :=
        mul_le_mul_of_nonneg_left hbk (div_nonneg ha.1 (by norm_num))
      _ = alphaAt img i := by field_simp

theorem avgA_nonneg (img : RGBAImage) : 0 ≤ avgA img :=
  Finset.sum_nonneg fun i _ =>
    div_nonneg (byteAt_nonneg img _) (by norm_num)

theorem sumR_mem {img : RGBAImage} (hb : ∀ b ∈ img.pix, b ≤ 255) :
    0 ≤ sumR img ∧ sumR img ≤ avgA img :=
  ⟨Finset.sum_nonneg fun i _ => (accum_term_mem hb i _).1,
    Finset.sum_le_sum fun i _ => (accum_term_mem hb i _).2⟩

theorem sumG_mem {img : RGBAImage} (hb : ∀ b ∈ img.pix, b ≤ 255) :
    0 ≤ sumG img ∧ sumG img ≤ avgA img :=
  ⟨Finset.sum_nonneg fun i _ => (accum_term_mem hb i _).1,
    Finset.sum_le_sum fun i _ => (accum_term_mem hb i _).2⟩

theorem sumB_mem {img : RGBAImage} (hb : ∀ b ∈ img.pix, b ≤ 255) :
    0 ≤ sumB img ∧ sumB img ≤ avgA img :=
  ⟨Finset.sum_nonneg fun i _ => (accum_term_mem hb i _).1,
    Finset.sum_le_sum fun i _ => (accum_term_mem hb i _).2⟩

/-- The conditional normalization keeps the averaged channel in `[0, 1]`. -/
theorem avg_norm_mem {A s : ℚ} (hA : 0 ≤ A) (hs0 : 0 ≤ s) (hsA : s ≤ A) :
    0 ≤ (if 0 < A then s / A else s) ∧ (if 0 < A then s / A else s) ≤ 1 := by
  split_ifs with hpos
  · exact ⟨div_nonneg hs0 hA, (div_le_one hpos).mpr hsA⟩
  · have hz : A = 0 := le_antisymm (le_of_not_lt hpos) hA
    refine ⟨hs0, ?_⟩
    rw [hz] at hsA
    linarith

theorem avgR_mem {img : RGBAImage} (hb : ∀ b ∈ img.pix, b ≤ 255) :
    0 ≤ avgR img ∧ avgR img ≤ 1 :=
  avg_norm_mem (avgA_nonneg img) (sumR_mem hb).1 (sumR_mem hb).2

theorem avgG_mem {img : RGBAImage} (hb : ∀ b ∈ img.pix, b ≤ 255) :
    0 ≤ avgG img ∧ avgG img ≤ 1 :=
  avg_norm_mem (avgA_nonneg img) (sumG_mem hb).1 (sumG_mem hb).2

theorem avgB_mem {img : RGBAImage} (hb : ∀ b ∈ img.pix, b ≤ 255) :
    0 ≤ avgB img ∧ avgB img ≤ 1 :=
  avg_norm_mem (avgA_nonneg img) (sumB_mem hb).1 (sumB_mem hb).2

/-- An effective channel value `avg*(1-a) + a/255*byte` is in `[0, 1]`. -/
theorem eff_mem {A a v : ℚ} (hA : 0 ≤ A ∧ A ≤ 1) (ha : 0 ≤ a ∧ a ≤ 1)
    (hv : 0 ≤ v ∧ v ≤ 255) :
    0 ≤ A * (1 - a) + a / 255 * v ∧ A * (1 - a) + a / 255 * v ≤ 1 := by
  constructor
  · have h1 : 0 ≤ A * (1 - a) := mul_nonneg hA.1 (by linarith [ha.2])
    have h2 : 0 ≤ a / 255 * v := by
      have := ha.1; have := hv.1; positivity
    linarith
  · have h1 : A * (1 - a) ≤ 1 - a :=
      mul_le_of_le_one_left (by linarith [ha.2]) hA.2
    have h2 : a / 255 * v ≤ a := by
      calc a / 255 * v ≤ a / 255 * 255 :=
            mul_le_mul_of_nonneg_left hv.2 (by have := ha.1; positivity)
        _ = a := by field_simp
    linarith

theorem effR_mem {img : RGBAImage} (hb : ∀ b ∈ img.pix, b ≤ 255) (i : ℕ) :
    0 ≤ effR img i ∧ effR img i ≤ 1 :=
  eff_mem (avgR_mem hb) (alphaAt_mem hb i) ⟨byteAt_nonneg img _, byteAt_le hb _⟩

theorem effG_mem {img : RGBAImage} (hb : ∀ b ∈ img.pix, b ≤ 255) (i : ℕ) :
    0 ≤ effG img i ∧ effG img i ≤ 1 :=
  eff_mem (avgG_mem hb) (alphaAt_mem hb i) ⟨byteAt_nonneg img _, byteAt_le hb _⟩

theorem effB_mem {img : RGBAImage} (hb : ∀ b ∈ img.pix, b ≤ 255) (i : ℕ) :
    0 ≤ effB img i ∧ effB img i ≤ 1 :=
  eff_mem (avgB_mem hb) (alphaAt_mem hb i) ⟨byteAt_nonneg img _, byteAt_le hb _⟩

theorem lChannel_mem {img : RGBAImage} (hb : ∀ b ∈ img.pix, b ≤ 255) :
    ∀ v ∈ lChannel img, 0 ≤ v ∧ v ≤ 1 := by
  intro v hv
  rw [lChannel, List.mem_map] at hv
  obtain ⟨i, -, rfl⟩ := hv
  have hr := effR_mem hb i
  have hg := effG_mem hb i
  have hbb := effB_mem hb i
  constructor <;> [linarith [hr.1, hg.1, hbb.1]; linarith [hr.2, hg.2, hbb.2]]

theorem pChannel_abs {img : RGBAImage} (hb : ∀ b ∈ img.pix, b ≤ 255) :
    ∀ v ∈ pChannel img, |v| ≤ 1 := by
  intro v hv
  rw [pChannel, List.mem_map] at hv
  obtain ⟨i, -, rfl⟩ := hv
  have hr := effR_mem hb i
  have hg := effG_mem hb i
  have hbb := effB_mem hb i
  rw [abs_le]
  constructor <;> [linarith [hr.1, hg.1, hbb.2]; linarith [hr.2, hg.2, hbb.1]]

theorem qChannel_abs {img : RGBAImage} (hb : ∀ b ∈ img.pix, b ≤ 255) :
    ∀ v ∈ qChannel img, |v| ≤ 1 := by
  intro v hv
  rw [qChannel, List.mem_map] at hv
  obtain ⟨i, -, rfl⟩ := hv
  have hr := effR_mem hb i
  have hg := effG_mem hb i
  rw [abs_le]
  constructor <;> [linarith [hr.1, hg.2]; linarith [hr.2, hg.1]]

theorem aChannel_mem {img : RGBAImage} (hb : ∀ b ∈ img.pix, b ≤ 255) :
    ∀ v ∈ aChannel img, 0 ≤ v ∧ v ≤ 1 := by
  intro v hv
  rw [aChannel, List.mem_map] at hv
  obtain ⟨i, -, rfl⟩ := hv
  exact alphaAt_mem hb i

theorem lChannel_abs {img : RGBAImage} (hb : ∀ b ∈ img.pix, b ≤ 255) :
    ∀ v ∈ lChannel img, |v| ≤ 1 := fun v hv => by
  have := lChannel_mem hb v hv
  rw [abs_le]
  exact ⟨by linarith [this.1], this.2⟩

theorem aChannel_abs {img : RGBAImage} (hb : ∀ b ∈ img.pix, b ≤ 255) :
    ∀ v ∈ aChannel img, |v| ≤ 1 := fun v hv => by
  have := aChannel_mem hb v hv
  rw [abs_le]
  exact ⟨by linarith [this.1], this.2⟩

/-! ### Clamping helpers for the decoder output -/

theorem clamp_channel_mem (r af : ℚ) (haf0 : 0 ≤ af) (haf1 : af ≤ 1) :
    0 ≤ max 0 (min 1 r * 255 * af) ∧ max 0 (min 1 r * 255 * af) ≤ 255 := by
  refine ⟨le_max_left _ _, max_le (by norm_num) ?_⟩
  have hm : min 1 r ≤ 1 := min_le_left _ _
  have h1 : min 1 r * af ≤ 1 * af := mul_le_mul_of_nonneg_right hm haf0
  rw [one_mul] at h1
  nlinarith [h1, haf1]

theorem byteOfFloat_le {x : ℚ} (h : x ≤ 255) : byteOfFloat x ≤ 255 := by
  unfold byteOfFloat
  have h1 : ((Int.floor x : ℤ) : ℚ) ≤ 255 := le_trans (Int.floor_le x) h
  have h2 : Int.floor x ≤ 255 := by exact_mod_cast h1
  omega

/-! ### Claim theorems -/

/-- **C5 (counterexample)**: the claim that all four converted channel values
lie in `[0, 1]` fails on a 1×1 opaque pure-blue image, whose P value is
`(0+0)/2 - 1 = -1 < 0`. -/
theorem c5_channel_range_counterexample :
    imgBlue.WF ∧ (pChannel imgBlue).getD 0 0 = -1 ∧
      ¬ (0 ≤ (pChannel imgBlue).getD 0 0) := by
  have hp : (pChannel imgBlue).getD 0 0 = -1 := by
    norm_num [pChannel, effR, effG, effB, avgR, avgG, avgB, sumR, sumG, sumB,
      avgA, alphaAt, byteAt, nbPixels, imgBlue]
  refine ⟨⟨by decide, by decide, by decide, by decide⟩, hp, ?_⟩
  rw [hp]
  norm_num

/-- **C5 (amended)**: for a well-formed image the converted channel values
satisfy `L ∈ [0,1]`, `A ∈ [0,1]`, `P ∈ [-1,1]`, `Q ∈ [-1,1]`. -/
theorem c5_channel_ranges (img : RGBAImage) (hwf : img.WF) :
    (∀ v ∈ lChannel img, 0 ≤ v ∧ v ≤ 1) ∧
    (∀ v ∈ aChannel img, 0 ≤ v ∧ v ≤ 1) ∧
    (∀ v ∈ pChannel img, -1 ≤ v ∧ v ≤ 1) ∧
    (∀ v ∈ qChannel img, -1 ≤ v ∧ v ≤ 1) := by
  obtain ⟨-, -, -, hb⟩ := hwf
  refine ⟨lChannel_mem hb, aChannel_mem hb, ?_, ?_⟩
  · intro v hv
    exact abs_le.mp (pChannel_abs hb v hv)
  · intro v hv
    exact abs_le.mp (qChannel_abs hb v hv)

theorem c5_channel_ranges_witness :
    img1.WF ∧ ∀ v ∈ pChannel img1, -1 ≤ v ∧ v ≤ 1 := by
  have hwf : img1.WF := ⟨by decide, by decide, by decide, by decide⟩
  exact ⟨hwf, (c5_channel_ranges img1 hwf).2.2.1⟩

/-- **C4**: the encoder sets the HasAlpha flag to `true` iff some pixel has
alpha byte `< 255`, and to `false` iff every pixel is fully opaque. -/
theorem c4_hasAlpha_iff (img : RGBAImage) (hwf : img.WF) :
    (hasAlphaE img = true ↔
      ∃ i < nbPixels img, img.pix.getD (i * 4 + 3) 0 < 255) ∧
    (hasAlphaE img = false ↔
      ∀ i < nbPixels img, img.pix.getD (i * 4 + 3) 0 = 255) := by
  obtain ⟨-, -, -, hb⟩ := hwf
  have key : avgA img < (nbPixels img : ℚ) ↔
      ∃ i < nbPixels img, img.pix.getD (i * 4 + 3) 0 < 255 := by
    constructor
    · intro hlt
      by_contra hno
      push_neg at hno
      have hall : ∀ i ∈ Finset.range (nbPixels img), alphaAt img i = 1 := by
        intro i hi
        have h255 : img.pix.getD (i * 4 + 3) 0 = 255 :=
          le_antisymm (getD_le_of_forall hb _) (hno i (Finset.mem_range.mp hi))
        unfold alphaAt byteAt
        rw [h255]
        norm_num
      rw [avgA, Finset.sum_congr rfl hall, Finset.sum_const,
        Finset.card_range] at hlt
      simp at hlt
    · rintro ⟨i, hi, hlt⟩
      have hstrict : alphaAt img i < 1 := by
        unfold alphaAt byteAt
        rw [div_lt_one (by norm_num)]
        exact_mod_cast hlt
      calc avgA img < ∑ _j ∈ Finset.range (nbPixels img), (1 : ℚ) := by
            refine Finset.sum_lt_sum (fun j _ => (alphaAt_mem hb j).2) ?_
            exact ⟨i, Finset.mem_range.mpr hi, hstrict⟩
        _ = (nbPixels img : ℚ) := by
            rw [Finset.sum_const, Finset.card_range]
            simp
  constructor
  · rw [hasAlphaE, decide_eq_true_eq]
    exact key
  · rw [hasAlphaE, decide_eq_false_iff_not, key]
    push_neg
    constructor
    · intro hno i hi
      exact le_antisymm (getD_le_of_forall hb _) (hno i hi)
    · intro hall i hi
      rw [hall i hi]

theorem c4_hasAlpha_iff_witness :
    (hasAlphaE imgT = true ↔
      ∃ i < nbPixels imgT, imgT.pix.getD (i * 4 + 3) 0 < 255) ∧
    hasAlphaE imgT = true := by
  have hwf : imgT.WF := ⟨by decide, by decide, by decide, by decide⟩
  refine ⟨(c4_hasAlpha_iff imgT hwf).1, ?_⟩
  exact (c4_hasAlpha_iff imgT hwf).1.mpr ⟨0, by decide, by decide⟩

/-- **C7**: for every output pixel of the decoder, each of the four float
values converted to a byte lies in `[0, 255]` (whatever the reconstructed
channel values are), so every written RGBA byte is in `[0, 255]`. -/
theorem c7_output_clamped (c : ℕ → ℕ → ℕ → ℚ) (H : DecHash) (w h x y : ℕ) :
    (0 ≤ (pixelFloats c H w h x y).1 ∧ (pixelFloats c H w h x y).1 ≤ 255) ∧
    (0 ≤ (pixelFloats c H w h x y).2.1 ∧ (pixelFloats c H w h x y).2.1 ≤ 255) ∧
    (0 ≤ (pixelFloats c H w h x y).2.2.1 ∧ (pixelFloats c H w h x y).2.2.1 ≤ 255) ∧
    (0 ≤ (pixelFloats c H w h x y).2.2.2 ∧ (pixelFloats c H w h x y).2.2.2 ≤ 255) ∧
    ∀ b ∈ pixelBytes c H w h x y, b ≤ 255 := by
  have haf0 : 0 ≤ max 0 (min 1 (aValD c H w h x y)) := le_max_left _ _
  have haf1 : max 0 (min 1 (aValD c H w h x y)) ≤ 1 :=
    max_le (by norm_num) (min_le_left _ _)
  have h1 := clamp_channel_mem ((3 * lValD c H w h x y -
      (lValD c H w h x y - 2 / 3 * pValD c H w h x y) + qValD c H w h x y) / 2)
    _ haf0 haf1
  have h2 := clamp_channel_mem ((3 * lValD c H w h x y -
      (lValD c H w h x y - 2 / 3 * pValD c H w h x y) + qValD c H w h x y) / 2 -
      qValD c H w h x y) _ haf0 haf1
  have h3 := clamp_channel_mem (lValD c H w h x y - 2 / 3 * pValD c H w h x y)
    _ haf0 haf1
  have h4 : 0 ≤ max 0 (min 1 (aValD c H w h x y)) * 255 ∧
      max 0 (min 1 (aValD c H w h x y)) * 255 ≤ 255 :=
    ⟨by nlinarith [haf0], by nlinarith [haf1]⟩
  refine ⟨h1, h2, h3, h4, ?_⟩
  intro b hb
  rw [pixelBytes] at hb
  simp only [List.mem_cons, List.not_mem_nil, or_false] at hb
  rcases hb with rfl | rfl | rfl | rfl
  · exact byteOfFloat_le h1.2
  · exact byteOfFloat_le h2.2
  · exact byteOfFloat_le h3.2
  · exact byteOfFloat_le h4.2

/-! ### Parse-phase analysis -/

theorem decodeChannel_some_inv {hash : List ℕ} {start : ℕ} {scale : ℚ}
    {ps : List (ℕ × ℕ)} {idx : ℕ} {fs : List ℚ} {idx2 : ℕ}
    (h : decodeChannel hash start scale idx ps = some (fs, idx2)) :
    idx2 = idx + ps.length ∧ fs.length = ps.length ∧
      (∀ f ∈ fs, ∃ n : ℕ, n ≤ 15 ∧ f = ((n : ℚ) / 7.5 - 1) * scale) ∧
      ∀ j < ps.length, start + (idx + j) / 2 < hash.length := by
  induction ps generalizing idx fs idx2 with
  | nil =>
    rw [decodeChannel] at h
    obtain ⟨rfl, rfl⟩ : ([] : List ℚ) = fs ∧ idx = idx2 := by
      have := Option.some.inj h
      exact ⟨congrArg Prod.fst this, congrArg Prod.snd this⟩
    exact ⟨by simp, rfl, by simp, by simp⟩
  | cons p ps ih =>
    rw [decodeChannel] at h
    by_cases h0 : start + idx / 2 < hash.length
    · rw [if_pos h0] at h
      rcases he : decodeChannel hash start scale (idx + 1) ps with _ | ⟨fs2, idx3⟩
      · rw [he] at h; cases h
      · rw [he] at h
        obtain ⟨hval, hidx⟩ : ((((hash.getD (start + idx / 2) 0 >>>
            ((idx &&& 1) * 4)) &&& 15 : ℕ) : ℚ) / 7.5 - 1) * scale :: fs2 = fs ∧
            idx3 = idx2 := by
          have := Option.some.inj h
          exact ⟨congrArg Prod.fst this, congrArg Prod.snd this⟩
        obtain ⟨hi3, hl2, hv2, hr2⟩ := ih he
        subst hval
        refine ⟨by simp; omega, by simp [hl2], ?_, ?_⟩
        · intro f hf
          rcases List.mem_cons.mp hf with rfl | hmem
          · refine ⟨(hash.getD (start + idx / 2) 0 >>> ((idx &&& 1) * 4)) &&& 15,
              ?_, rfl⟩
            rw [and15]
            omega
          · exact hv2 f hmem
        · intro j hj
          rcases Nat.eq_zero_or_pos j with rfl | hjpos
          · simpa using h0
          · have := hr2 (j - 1) (by simp at hj; omega)
            have harith : idx + 1 + (j - 1) = idx + j := by omega
            rwa [harith] at this
    · rw [if_neg h0] at h
      cases h

theorem lCountD_le (hash : List ℕ) : lCountD hash ≤ 7 := by
  rw [lCountD, and7]
  omega

theorem lxD_mem (hash : List ℕ) : 3 ≤ lxD hash ∧ lxD hash ≤ 7 := by
  have := lCountD_le hash
  rw [lxD]
  split_ifs <;> omega

theorem lyD_mem (hash : List ℕ) : 3 ≤ lyD hash ∧ lyD hash ≤ 7 := by
  have := lCountD_le hash
  rw [lyD]
  split_ifs <;> omega

theorem pairList_one_length_pos {nx ny : ℕ} (hx3 : 3 ≤ nx) (hx7 : nx ≤ 7)
    (hy3 : 3 ≤ ny) (hy7 : ny ≤ 7) : 1 ≤ (pairList nx ny 1).length := by
  interval_cases nx <;> interval_cases ny <;> decide

/-- `parseHash` fails exactly on the three structural conditions. -/
theorem parseHash_eq_none_iff (hash : List ℕ) :
    parseHash hash = none ↔
      hash.length < 5 ∨ (hasAlphaD hash = true ∧ hash.length < 6) ∨
        hash.length ≤ startD hash + (totalNibblesD hash - 1) / 2 := by
  by_cases h5 : hash.length < 5
  · simp [parseHash, h5]
  · rw [parseHash, if_neg h5]
    by_cases h6 : hasAlphaD hash ∧ hash.length < 6
    · rw [if_pos h6]
      simp only [eq_self_iff_true, true_iff]
      exact Or.inr (Or.inl ⟨h6.1, h6.2⟩)
    · rw [if_neg h6]
      have hm5 : (pairList 3 3 1).length = 5 := by decide
      have hma : (pairList 5 5 1).length = 14 := by decide
      have hm1 : 1 ≤ (pairList (lxD hash) (lyD hash) 1).length :=
        pairList_one_length_pos (lxD_mem hash).1 (lxD_mem hash).2
          (lyD_mem hash).1 (lyD_mem hash).2
      set m1 := (pairList (lxD hash) (lyD hash) 1).length with hm1def
      have hTval : totalNibblesD hash =
          m1 + 5 + 5 + (if hasAlphaD hash then 14 else 0) := by
        rw [totalNibblesD, hm5, hma, ← hm1def]
      constructor
      · intro hn
        rcases hL : decodeChannel hash (startD hash) (lScaleD hash) 0
            (pairList (lxD hash) (lyD hash) 1) with _ | ⟨lAC, idx1⟩
        · obtain ⟨j, hj, hle⟩ := (decodeChannel_none_iff _ _).mp hL
          refine Or.inr (Or.inr ?_)
          have hmono : (0 + j) / 2 ≤ (totalNibblesD hash - 1) / 2 :=
            Nat.div_le_div_right (by split_ifs at hTval <;> omega)
          omega

        · rw [hL] at hn
          dsimp only at hn
          obtain ⟨hidx1, hlen1, -, -⟩ := decodeChannel_some_inv hL
          rcases hP : decodeChannel hash (startD hash) (pScaleD hash * 1.25)
              idx1 (pairList 3 3 1) with _ | ⟨pAC, idx2⟩
          · obtain ⟨j, hj, hle⟩ := (decodeChannel_none_iff _ _).mp hP
            refine Or.inr (Or.inr ?_)
            rw [hm5] at hj
            have hmono : (idx1 + j) / 2 ≤ (totalNibblesD hash - 1) / 2 :=
              Nat.div_le_div_right (by split_ifs at hTval <;> omega)
            omega
          · rw [hP] at hn
            dsimp only at hn
            obtain ⟨hidx2, hlen2, -, -⟩ := decodeChannel_some_inv hP
            rcases hQ : decodeChannel hash (startD hash) (qScaleD hash * 1.25)
                idx2 (pairList 3 3 1) with _ | ⟨qAC, idx3⟩
            · obtain ⟨j, hj, hle⟩ := (decodeChannel_none_iff _ _).mp hQ
              refine Or.inr (Or.inr ?_)
              rw [hm5] at hj
              have hmono : (idx2 + j) / 2 ≤ (totalNibblesD hash - 1) / 2 :=
                Nat.div_le_div_right (by rw [hm5] at hidx2; split_ifs at hTval <;> omega)
              omega
            · rw [hQ] at hn
              dsimp only at hn
              obtain ⟨hidx3, hlen3, -, -⟩ := decodeChannel_some_inv hQ
              by_cases ha : hasAlphaD hash
              · rw [if_pos ha] at hn
                rcases hA : decodeChannel hash (startD hash) (aScaleD hash)
                    idx3 (pairList 5 5 1) with _ | ⟨aAC, idx4⟩
                · obtain ⟨j, hj, hle⟩ := (decodeChannel_none_iff _ _).mp hA
                  refine Or.inr (Or.inr ?_)
                  rw [hma] at hj
                  rw [if_pos ha] at hTval
                  rw [hm5] at hidx2 hidx3
                  have hmono : (idx3 + j) / 2 ≤ (totalNibblesD hash - 1) / 2 :=
                    Nat.div_le_div_right (by omega)
                  omega
                · rw [hA] at hn
                  dsimp only at hn
                  cases hn
              · rw [if_neg ha] at hn
                cases hn
      · intro hcond
        rcases hcond with h | h | hbound
        · omega
        · exact absurd ⟨h.1, h.2⟩ h6
        · rcases hL : decodeChannel hash (startD hash) (lScaleD hash) 0
              (pairList (lxD hash) (lyD hash) 1) with _ | ⟨lAC, idx1⟩
          · rfl
          · dsimp only
            obtain ⟨hidx1, hlen1, -, hroom1⟩ := decodeChannel_some_inv hL
            rcases hP : decodeChannel hash (startD hash) (pScaleD hash * 1.25)
                idx1 (pairList 3 3 1) with _ | ⟨pAC, idx2⟩
            · rfl
            · dsimp only
              obtain ⟨hidx2, hlen2, -, hroom2⟩ := decodeChannel_some_inv hP
              rcases hQ : decodeChannel hash (startD hash) (qScaleD hash * 1.25)
                  idx2 (pairList 3 3 1) with _ | ⟨qAC, idx3⟩
              · rfl
              · dsimp only
                obtain ⟨hidx3, hlen3, -, hroom3⟩ := decodeChannel_some_inv hQ
                by_cases ha : hasAlphaD hash
                · rw [if_pos ha]
                  rcases hA : decodeChannel hash (startD hash) (aScaleD hash)
                      idx3 (pairList 5 5 1) with _ | ⟨aAC, idx4⟩
                  · rfl
                  · dsimp only
                    obtain ⟨hidx4, hlen4, -, hroom4⟩ := decodeChannel_some_inv hA
                    exfalso
                    have hlast := hroom4 ((pairList 5 5 1).length - 1)
                      (by rw [hma]; omega)
                    rw [if_pos ha] at hTval
                    rw [hm5] at hidx2 hidx3
                    rw [hma] at hlast
                    have : idx3 + 13 = totalNibblesD hash - 1 := by omega
                    omega
                · rw [if_neg ha]
                  exfalso
                  have hlast := hroom3 ((pairList 3 3 1).length - 1)
                    (by rw [hm5]; omega)
                  rw [if_neg ha] at hTval
                  rw [hm5] at hidx2 hlast
                  have : idx2 + 4 = totalNibblesD hash - 1 := by omega
                  omega

/-- Everything a successful parse says about the resulting fields. -/
theorem parseHash_inv {hash : List ℕ} {H : DecHash}
    (h : parseHash hash = some H) :
    H.lDC = lDCD hash ∧ H.pDC = pDCD hash ∧ H.qDC = qDCD hash ∧
    H.lScale = lScaleD hash ∧ H.hasAlpha = hasAlphaD hash ∧
    H.pScale = pScaleD hash ∧ H.qScale = qScaleD hash ∧
    H.isLandscape = isLandscapeD hash ∧ H.lx = lxD hash ∧ H.ly = lyD hash ∧
    H.aDC = aDCD hash ∧ H.aScale = aScaleD hash ∧
    (∀ f ∈ H.lAC, ∃ n : ℕ, n ≤ 15 ∧ f = ((n : ℚ) / 7.5 - 1) * lScaleD hash) ∧
    (∀ f ∈ H.pAC, ∃ n : ℕ, n ≤ 15 ∧ f = ((n : ℚ) / 7.5 - 1) * (pScaleD hash * 1.25)) ∧
    (∀ f ∈ H.qAC, ∃ n : ℕ, n ≤ 15 ∧ f = ((n : ℚ) / 7.5 - 1) * (qScaleD hash * 1.25)) ∧
    (∀ f ∈ H.aAC, ∃ n : ℕ, n ≤ 15 ∧ f = ((n : ℚ) / 7.5 - 1) * aScaleD hash) := by
  rw [parseHash] at h
  by_cases h5 : hash.length < 5
  · rw [if_pos h5] at h; cases h
  rw [if_neg h5] at h
  by_cases h6 : hasAlphaD hash ∧ hash.length < 6
  · rw [if_pos h6] at h; cases h
  rw [if_neg h6] at h
  rcases hL : decodeChannel hash (startD hash) (lScaleD hash) 0
      (pairList (lxD hash) (lyD hash) 1) with _ | ⟨lAC, idx1⟩ <;> rw [hL] at h
  · cases h
  dsimp only at h
  rcases hP : decodeChannel hash (startD hash) (pScaleD hash * 1.25) idx1
      (pairList 3 3 1) with _ | ⟨pAC, idx2⟩ <;> rw [hP] at h
  · cases h
  dsimp only at h
  rcases hQ : decodeChannel hash (startD hash) (qScaleD hash * 1.25) idx2
      (pairList 3 3 1) with _ | ⟨qAC, idx3⟩ <;> rw [hQ] at h
  · cases h
  dsimp only at h
  obtain ⟨-, -, hLv, -⟩ := decodeChannel_some_inv hL
  obtain ⟨-, -, hPv, -⟩ := decodeChannel_some_inv hP
  obtain ⟨-, -, hQv, -⟩ := decodeChannel_some_inv hQ
  by_cases ha : hasAlphaD hash
  · rw [if_pos ha] at h
    rcases hA : decodeChannel hash (startD hash) (aScaleD hash) idx3
        (pairList 5 5 1) with _ | ⟨aAC, idx4⟩ <;> rw [hA] at h
    · cases h
    dsimp only at h
    obtain ⟨-, -, hAv, -⟩ := decodeChannel_some_inv hA
    obtain rfl := Option.some.inj h
    exact ⟨rfl, rfl, rfl, rfl, rfl, rfl, rfl, rfl, rfl, rfl, rfl, rfl,
      hLv, hPv, hQv, hAv⟩
  · rw [if_neg ha] at h
    obtain rfl := Option.some.inj h
    exact ⟨rfl, rfl, rfl, rfl, rfl, rfl, rfl, rfl, rfl, rfl, rfl, rfl,
      hLv, hPv, hQv, by simp⟩

/-- **C2**: `Decode` fails — with the single error `ErrInvalidHash`, modelled
by `none`, and producing no pixel buffer — exactly when the byte array is
shorter than 5 bytes, or the HasAlpha bit is set and the array is shorter
than 6 bytes (in particular on every 5-byte array with the bit set), or
reading the next AC nibble would index a byte past the end of the array. -/
theorem c2_decode_error_iff (c : ℕ → ℕ → ℕ → ℚ) (hash : List ℕ) :
    Decode c hash = none ↔
      hash.length < 5 ∨ (hasAlphaD hash = true ∧ hash.length < 6) ∨
        hash.length ≤ startD hash + (totalNibblesD hash - 1) / 2 := by
  rw [Decode, Option.map_eq_none']
  exact parseHash_eq_none_iff hash

/-- **C9**: the decoder assigns the 3-bit stored count (clamped to a minimum
of 3) to `lx` when the image is not landscape and to `ly` when it is; the
opposite dimension is 5 when HasAlpha is set and 7 otherwise. -/
theorem c9_grid_recovery (hash : List ℕ) (H : DecHash)
    (h : parseHash hash = some H) :
    (H.isLandscape = false →
      H.lx = max 3 (header16D hash &&& 7) ∧
        H.ly = (if H.hasAlpha then 5 else 7)) ∧
    (H.isLandscape = true →
      H.ly = max 3 (header16D hash &&& 7) ∧
        H.lx = (if H.hasAlpha then 5 else 7)) := by
  obtain ⟨-, -, -, -, hha, -, -, hland, hlx, hly, -⟩ := parseHash_inv h
  constructor
  · intro hfalse
    rw [hland] at hfalse
    rw [hlx, hly, hha, lxD, lyD, hfalse, lCountD]
    simp
  · intro htrue
    rw [hland] at htrue
    rw [hlx, hly, hha, lxD, lyD, htrue, lCountD]
    simp

/-- **C8**: every AC value of the two chroma channels is reconstructed as
`(n/7.5 - 1) * (stored_scale * 1.25)` — the saturation boost 1.25 multiplies
exactly the stored P and Q scales — while the luminance and alpha AC values
use the stored scales unmodified. -/
theorem c8_saturation_boost (hash : List ℕ) (H : DecHash)
    (h : parseHash hash = some H) :
    (∀ f ∈ H.lAC, ∃ n : ℕ, n ≤ 15 ∧ f = ((n : ℚ) / 7.5 - 1) * H.lScale) ∧
    (∀ f ∈ H.pAC, ∃ n : ℕ, n ≤ 15 ∧ f = ((n : ℚ) / 7.5 - 1) * (H.pScale * 1.25)) ∧
    (∀ f ∈ H.qAC, ∃ n : ℕ, n ≤ 15 ∧ f = ((n : ℚ) / 7.5 - 1) * (H.qScale * 1.25)) ∧
    (∀ f ∈ H.aAC, ∃ n : ℕ, n ≤ 15 ∧ f = ((n : ℚ) / 7.5 - 1) * H.aScale) := by
  obtain ⟨-, -, -, hls, -, hps, hqs, -, -, -, -, has, hLv, hPv, hQv, hAv⟩ :=
    parseHash_inv h
  rw [hls, hps, hqs, has]
  exact ⟨hLv, hPv, hQv, hAv⟩

theorem parse_hash17 : parseHash hash17 = some H17 :=
  (Option.some_get (by decide)).symm

theorem c9_grid_recovery_witness :
    (H17.isLandscape = false →
      H17.lx = max 3 (header16D hash17 &&& 7) ∧
        H17.ly = (if H17.hasAlpha then 5 else 7)) ∧
    (H17.isLandscape = true →
      H17.ly = max 3 (header16D hash17 &&& 7) ∧
        H17.lx = (if H17.hasAlpha then 5 else 7)) :=
  c9_grid_recovery hash17 H17 parse_hash17

theorem c8_saturation_boost_witness :
    (∀ f ∈ H17.lAC, ∃ n : ℕ, n ≤ 15 ∧ f = ((n : ℚ) / 7.5 - 1) * H17.lScale) ∧
    (∀ f ∈ H17.pAC, ∃ n : ℕ, n ≤ 15 ∧ f = ((n : ℚ) / 7.5 - 1) * (H17.pScale * 1.25)) ∧
    (∀ f ∈ H17.qAC, ∃ n : ℕ, n ≤ 15 ∧ f = ((n : ℚ) / 7.5 - 1) * (H17.qScale * 1.25)) ∧
    (∀ f ∈ H17.aAC, ∃ n : ℕ, n ≤ 15 ∧ f = ((n : ℚ) / 7.5 - 1) * H17.aScale) :=
  c8_saturation_boost hash17 H17 parse_hash17

/-! ### Encode success -/

theorem getD_set_ne {l : List ℕ} {i m : ℕ} (h : m ≠ i) (v : ℕ) :
    (l.set i v).getD m 0 = l.getD m 0 := by
  rw [List.getD_eq_getElem?_getD, List.getElem?_set_ne (Ne.symm h),
    ← List.getD_eq_getElem?_getD]

theorem getD_set_self {l : List ℕ} {i : ℕ} (h : i < l.length) (v : ℕ) :
    (l.set i v).getD i 0 = v := by
  rw [List.getD_eq_getElem?_getD, List.getElem?_set_self h]
  rfl

theorem getD_replicate_zero (n m : ℕ) :
    (List.replicate n (0 : ℕ)).getD m 0 = 0 := by
  by_cases hm : m < n
  · rw [List.getD_eq_getElem _ _ (by simpa using hm)]
    simp
  · rw [List.getD_eq_default _ _ (by simpa using Nat.le_of_not_lt hm)]

theorem encodeChannel_ac_length (c : ℕ → ℕ → ℕ → ℚ) (ch : List ℚ)
    (w h nx ny : ℕ) :
    (encodeChannel c ch w h nx ny).2.1.length =
      ((pairList nx ny 0).filter fun p => decide (0 < p.1 ∨ 0 < p.2)).length := by
  unfold encodeChannel
  dsimp only
  split_ifs <;> simp

theorem acSeqE_length (c : ℕ → ℕ → ℕ → ℚ) (img : RGBAImage) :
    (acSeqE c img).length = nbACE c img := by
  rw [acSeqE, nbACE]
  by_cases ha : hasAlphaE img <;> simp [ha] <;> omega

theorem nbACE_ge_five (c : ℕ → ℕ → ℕ → ℚ) (img : RGBAImage) :
    5 ≤ nbACE c img := by
  have hp : (pACE c img).length = 5 := by
    rw [pACE, pTriple, encodeChannel_ac_length]
    decide
  rw [nbACE]
  split_ifs <;> omega

theorem hashSizeE_eq (c : ℕ → ℕ → ℕ → ℚ) (img : RGBAImage) :
    hashSizeE c img = startE img + (nbACE c img + 1) / 2 := by
  rw [hashSizeE, startE]
  split_ifs <;> omega

theorem acSeqE_nibble_range (c : ℕ → ℕ → ℕ → ℚ) (img : RGBAImage) :
    ∀ f ∈ acSeqE c img, 0 ≤ iround (15 * f) ∧ iround (15 * f) ≤ 15 := by
  intro f hf
  rw [acSeqE] at hf
  simp only [List.append_assoc, List.mem_append] at hf
  rcases hf with hf | hf | hf | hf
  · exact encodeChannel_ac_nibble c (lChannel img) img.w img.h _ _ f hf
  · exact encodeChannel_ac_nibble c (pChannel img) img.w img.h _ _ f hf
  · exact encodeChannel_ac_nibble c (qChannel img) img.w img.h _ _ f hf
  · rcases hha : hasAlphaE img with hfalse | htrue
    · rw [hha] at hf
      simp at hf
    · rw [hha] at hf
      simp only [if_true] at hf
      exact encodeChannel_ac_nibble c (aChannel img) img.w img.h _ _ f hf

/-- `Encode` always succeeds and its header bytes are the five (or six)
bytes written before the AC nibbles. -/
theorem Encode_spec (c : ℕ → ℕ → ℕ → ℚ) (img : RGBAImage) :
    ∃ out, Encode c img = some out ∧ out.length = hashSizeE c img ∧
      out.getD 0 0 = byteOfInt (header24E c img) ∧
      out.getD 1 0 = byteOfInt (goShr (header24E c img) 8) ∧
      out.getD 2 0 = byteOfInt (goShr (header24E c img) 16) ∧
      out.getD 3 0 = byteOfInt (header16E c img) ∧
      out.getD 4 0 = byteOfInt (goShr (header16E c img) 8) ∧
      ∀ k < (acSeqE c img).length,
        (out.getD (startE img + k / 2) 0 >>> ((k &&& 1) * 4)) &&& 15 =
          (iround (15 * (acSeqE c img).getD k 0)).toNat := by
  have hsize : hashSizeE c img = startE img + (nbACE c img + 1) / 2 :=
    hashSizeE_eq c img
  have hstart5 : 5 ≤ startE img := by
    rw [startE]; split_ifs <;> omega
  have hstart6 : startE img ≤ 6 := by
    rw [startE]; split_ifs <;> omega
  have hn5 := nbACE_ge_five c img
  rw [Encode]
  set b1 := ((List.replicate (hashSizeE c img) 0).set 0
      (byteOfInt (header24E c img))).set 1
      (byteOfInt (goShr (header24E c img) 8)) |>.set 2
      (byteOfInt (goShr (header24E c img) 16)) with hb1
  set b2 := (b1.set 3 (byteOfInt (header16E c img))).set 4
    (byteOfInt (goShr (header16E c img) 8)) with hb2
  set b3 := if hasAlphaE img then
      b2.set 5 (byteOfInt (Int.lor (iround (15 * aDCE c img))
        (iround (15 * aScaleE c img) <<< (4 : ℤ))))
    else b2 with hb3
  have hlen3 : b3.length = hashSizeE c img := by
    rw [hb3]
    split_ifs <;> simp [hb2, hb1]
  have hzero : ∀ m, startE img ≤ m → b3.getD m 0 = 0 := by
    intro m hm
    have hm5 : m ≠ 5 ∨ ¬ hasAlphaE img = true := by
      rw [startE] at hm
      split_ifs at hm with hA
      · left; omega
      · right; simp [hA]
    have hb2z : b2.getD m 0 = 0 := by
      rw [hb2, hb1]
      rw [getD_set_ne (by omega), getD_set_ne (by omega), getD_set_ne (by omega),
        getD_set_ne (by omega), getD_set_ne (by omega)]
      exact getD_replicate_zero _ _
    rw [hb3]
    split_ifs with hA
    · rcases hm5 with hm5 | hm5
      · rw [getD_set_ne hm5, hb2z]
      · exact absurd hA hm5
    · exact hb2z
  obtain ⟨out, hpk, hol, hpre, -, hext⟩ := packNibbles_spec (acSeqE c img) b3
    (startE img) 0
    (fun j hj => by
      rw [acSeqE_length] at hj
      rw [hlen3, hsize]
      omega)
    (acSeqE_nibble_range c img)
    (by
      constructor
      · intro m hm hml
        exact hzero m (by omega)
      · have := hzero (startE img) (le_refl _)
        simpa using this)
  refine ⟨out, hpk, by rw [hol, hlen3], ?_, ?_, ?_, ?_, ?_, ?_⟩
  · rw [hpre _ (by omega), hb3]
    have h0len : 0 < b2.length := by
      have : b2.length = hashSizeE c img := by simp [hb2, hb1]
      omega
    have hb2v : b2.getD 0 0 = byteOfInt (header24E c img) := by
      rw [hb2, hb1, getD_set_ne (by omega), getD_set_ne (by omega),
        getD_set_ne (by omega), getD_set_ne (by omega)]
      exact getD_set_self (by simp; omega) _
    split_ifs
    · rw [getD_set_ne (by omega), hb2v]
    · exact hb2v
  · rw [hpre _ (by omega), hb3]
    have hb2v : b2.getD 1 0 = byteOfInt (goShr (header24E c img) 8) := by
      rw [hb2, hb1, getD_set_ne (by omega), getD_set_ne (by omega),
        getD_set_ne (by omega)]
      exact getD_set_self (by simp; omega) _
    split_ifs
    · rw [getD_set_ne (by omega), hb2v]
    · exact hb2v
  · rw [hpre _ (by omega), hb3]
    have hb2v : b2.getD 2 0 = byteOfInt (goShr (header24E c img) 16) := by
      rw [hb2, hb1, getD_set_ne (by omega), getD_set_ne (by omega)]
      exact getD_set_self (by simp; omega) _
    split_ifs
    · rw [getD_set_ne (by omega), hb2v]
    · exact hb2v
  · rw [hpre _ (by omega), hb3]
    have hb2v : b2.getD 3 0 = byteOfInt (header16E c img) := by
      rw [hb2, getD_set_ne (by omega)]
      exact getD_set_self (by simp [hb1]; omega) _
    split_ifs
    · rw [getD_set_ne (by omega), hb2v]
    · exact hb2v
  · rw [hpre _ (by omega), hb3]
    have hb2v : b2.getD 4 0 = byteOfInt (goShr (header16E c img) 8) := by
      rw [hb2]
      exact getD_set_self (by simp [hb1]; omega) _
    split_ifs
    · rw [getD_set_ne (by omega), hb2v]
    · exact hb2v
  · intro k hk
    have := hext k hk
    simpa using this

/-- **C3**: `Encode` is total — for every non-empty pixel buffer (and any
cosine values) it produces a byte array: every write lands inside the
allocated `5(+1) + ceil(nbAC/2)` bytes, the average-colour normalization is
skipped when the alpha mass is zero, and the AC remap is skipped when the
scale is zero (both conditionals are part of the embedded definitions). -/
theorem c3_encode_total (c : ℕ → ℕ → ℕ → ℚ) (img : RGBAImage)
    (hw : 1 ≤ img.w) (hh : 1 ≤ img.h) :
    ∃ out, Encode c img = some out ∧ out.length = hashSizeE c img := by
  obtain ⟨out, ho, hl, -⟩ := Encode_spec c img
  exact ⟨out, ho, hl⟩

/-- **C10**: every quantized AC nibble is in `[0, 15]`, and in the packed
hash each AC coefficient occupies exactly its own 4 bits: extracting the
nibble at stream position `k` from byte `start + k/2` (low nibble for even
`k`, high nibble for odd `k`) gives back exactly the quantized value. -/
theorem c10_nibble_packing (c : ℕ → ℕ → ℕ → ℚ) (img : RGBAImage) :
    (∀ f ∈ acSeqE c img, 0 ≤ iround (15 * f) ∧ iround (15 * f) ≤ 15) ∧
    ∀ out, Encode c img = some out →
      ∀ k < (acSeqE c img).length,
        (out.getD (startE img + k / 2) 0 >>> ((k &&& 1) * 4)) &&& 15 =
          (iround (15 * (acSeqE c img).getD k 0)).toNat := by
  refine ⟨acSeqE_nibble_range c img, ?_⟩
  intro out hout k hk
  obtain ⟨out2, ho2, -, -, -, -, -, -, hext⟩ := Encode_spec c img
  rw [hout] at ho2
  obtain rfl := Option.some.inj ho2
  exact hext k hk

theorem c10_nibble_packing_witness :
    (Encode oneC img1 = some ((Encode oneC img1).getD [])) ∧
    (((Encode oneC img1).getD []).getD (startE img1 + 0 / 2) 0 >>>
        ((0 &&& 1) * 4)) &&& 15 =
      (iround (15 * (acSeqE oneC img1).getD 0 0)).toNat := by
  obtain ⟨out, ho, -⟩ := Encode_spec oneC img1
  have hsome : Encode oneC img1 = some ((Encode oneC img1).getD []) := by
    rw [ho]; rfl
  refine ⟨hsome, ?_⟩
  refine (c10_nibble_packing oneC img1).2 _ hsome 0 ?_
  have h5 := nbACE_ge_five oneC img1
  rw [acSeqE_length]
  omega

theorem c3_encode_total_witness :
    ∃ out, Encode oneC img1 = some out ∧ out.length = hashSizeE oneC img1 :=
  c3_encode_total oneC img1 (by decide) (by decide)

/-! ### Indexing into the rendered pixel buffer -/

theorem flatMap_fixedLen_length {α : Type} (f : ℕ → List α) (k n : ℕ)
    (hk : ∀ i, (f i).length = k) :
    ((List.range n).flatMap f).length = k * n := by
  induction n with
  | zero => simp
  | succ n ih =>
    rw [List.range_succ, List.flatMap_append, List.length_append, ih]
    simp only [List.flatMap_cons, List.flatMap_nil, List.append_nil, hk n]
    ring

theorem flatMap_fixedLen_getD {α : Type} (f : ℕ → List α) (k : ℕ)
    (hk : ∀ i, (f i).length = k) (n i j : ℕ) (hi : i < n) (hj : j < k) (d : α) :
    ((List.range n).flatMap f).getD (k * i + j) d = (f i).getD j d := by
  induction n with
  | zero => omega
  | succ n ih =>
    rw [List.range_succ, List.flatMap_append]
    by_cases hin : i < n
    · rw [List.getD_append _ _ _ _ (by
        rw [flatMap_fixedLen_length f k n hk]
        calc k * i + j < k * i + k := by omega
          _ = k * (i + 1) := by ring
          _ ≤ k * n := Nat.mul_le_mul_left k hin)]
      exact ih hin
    · have hieq : i = n := by omega
      subst hieq
      rw [List.getD_append_right _ _ _ _ (by
        rw [flatMap_fixedLen_length f k i hk]; omega)]
      rw [flatMap_fixedLen_length f k i hk]
      simp only [List.flatMap_cons, List.flatMap_nil, List.append_nil]
      congr 1
      omega

/-- The alpha byte written at output pixel `(x, y)` is exactly the truncated
`max(0, min(1, a)) * 255`. -/
theorem decode_alpha_byte (c : ℕ → ℕ → ℕ → ℚ) {hash : List ℕ} {H : DecHash}
    (hp : parseHash hash = some H) {t : ℕ × ℕ × List ℕ}
    (ht : Decode c hash = some t) {x y : ℕ} (hx : x < t.1) (hy : y < t.2.1) :
    t.2.2.getD (4 * (y * t.1 + x) + 3) 0 =
      byteOfFloat (max 0 (min 1 (aValD c H t.1 t.2.1 x y)) * 255) := by
  rw [Decode, hp, Option.map_some'] at ht
  obtain rfl : renderImage c H = t := Option.some.inj ht
  have hx2 : x < (sizeD H).1 := hx
  have hy2 : y < (sizeD H).2 := hy
  show ((List.range (sizeD H).2).flatMap fun yy =>
      (List.range (sizeD H).1).flatMap fun xx =>
        pixelBytes c H (sizeD H).1 (sizeD H).2 xx yy).getD
      (4 * (y * (sizeD H).1 + x) + 3) 0 =
    byteOfFloat (max 0 (min 1
      (aValD c H (sizeD H).1 (sizeD H).2 x y)) * 255)
  have hrow : ∀ yy : ℕ, ((List.range (sizeD H).1).flatMap fun xx =>
      pixelBytes c H (sizeD H).1 (sizeD H).2 xx yy).length = 4 * (sizeD H).1 :=
    fun yy => flatMap_fixedLen_length _ 4 _ (fun _ => rfl)
  have hidx : 4 * (y * (sizeD H).1 + x) + 3 =
      (4 * (sizeD H).1) * y + (4 * x + 3) := by ring
  rw [hidx]
  rw [flatMap_fixedLen_getD _ (4 * (sizeD H).1) hrow (sizeD H).2 y (4 * x + 3)
    hy2 (by omega) 0]
  rw [flatMap_fixedLen_getD (fun xx =>
      pixelBytes c H (sizeD H).1 (sizeD H).2 xx y) 4 (fun _ => rfl)
    (sizeD H).1 x 3 hx2 (by omega) 0]
  rfl

/-! ### Evaluation of the concrete hash `hashT` -/

theorem hashT_lScale : lScaleD hashT = 0 := by
  rw [lScaleD, show header24D hashT = 8388608 from by decide,
    show ((8388608 >>> 18) &&& 31 : ℕ) = 0 from by decide]
  norm_num

theorem hashT_pScale : pScaleD hashT = 0 := by
  rw [pScaleD, show header16D hashT = 0 from by decide,
    show (((0 : ℕ) >>> 3) &&& 63 : ℕ) = 0 from by decide]
  norm_num

theorem hashT_qScale : qScaleD hashT = 0 := by
  rw [qScaleD, show header16D hashT = 0 from by decide,
    show (((0 : ℕ) >>> 9) &&& 63 : ℕ) = 0 from by decide]
  norm_num

theorem hashT_aScale : aScaleD hashT = 1 / 15 := by
  rw [aScaleD, if_pos (by decide : hasAlphaD hashT = true),
    show (hashT.getD 5 0 >>> 4 : ℕ) = 1 from by decide]
  norm_num

theorem hashT_chanL :
    decodeChannel hashT 6 (0 : ℚ) 0 (pairList 3 5 1) =
      some ([0, 0, 0, 0, 0, 0, 0, 0, 0, 0], 10) := by
  rw [show pairList 3 5 1 =
    [(1, 0), (2, 0), (0, 1), (1, 1), (2, 1), (0, 2), (1, 2), (0, 3), (1, 3),
     (0, 4)] from by decide]
  norm_num [decodeChannel, show hashT.length = 23 from by decide]

theorem hashT_chanP :
    decodeChannel hashT 6 (0 : ℚ) 10 (pairList 3 3 1) =
      some ([0, 0, 0, 0, 0], 15) := by
  rw [show pairList 3 3 1 = [(1, 0), (2, 0), (0, 1), (1, 1), (0, 2)] from
    by decide]
  norm_num [decodeChannel, show hashT.length = 23 from by decide]

theorem hashT_chanQ :
    decodeChannel hashT 6 (0 : ℚ) 15 (pairList 3 3 1) =
      some ([0, 0, 0, 0, 0], 20) := by
  rw [show pairList 3 3 1 = [(1, 0), (2, 0), (0, 1), (1, 1), (0, 2)] from
    by decide]
  norm_num [decodeChannel, show hashT.length = 23 from by decide]

theorem hashT_nibble_val :
    ((((8 : ℕ) : ℚ) / 7.5 - 1) * (1 / 15)) = 1 / 225 := by
  norm_num

theorem hashT_chanA :
    decodeChannel hashT 6 (1 / 15 : ℚ) 20 (pairList 5 5 1) =
      some (List.replicate 14 ((((8 : ℕ) : ℚ) / 7.5 - 1) * (1 / 15)), 34) := by
  rfl

theorem parse_hashT : parseHash hashT = some HT := by
  have hfLDC : lDCD hashT = 0 := by
    rw [lDCD, show header24D hashT = 8388608 from by decide,
      show ((8388608 &&& 63 : ℕ)) = 0 from by decide]
    norm_num
  have hfPDC : pDCD hashT = -1 := by
    rw [pDCD, show header24D hashT = 8388608 from by decide,
      show (((8388608 >>> 6) &&& 63 : ℕ)) = 0 from by decide]
    norm_num
  have hfQDC : qDCD hashT = -1 := by
    rw [qDCD, show header24D hashT = 8388608 from by decide,
      show (((8388608 >>> 12) &&& 63 : ℕ)) = 0 from by decide]
    norm_num
  have hfADC : aDCD hashT = 0 := by
    rw [aDCD, if_pos (by decide : hasAlphaD hashT = true),
      show ((hashT.getD 5 0 &&& 15 : ℕ)) = 0 from by decide]
    norm_num
  rw [parseHash, if_neg (by decide), if_neg (by decide),
    show startD hashT = 6 from by decide, show lxD hashT = 3 from by decide,
    show lyD hashT = 5 from by decide, hashT_lScale, hashT_pScale,
    hashT_qScale, hashT_aScale, hfLDC, hfPDC, hfQDC, hfADC,
    show hasAlphaD hashT = true from by decide,
    show isLandscapeD hashT = false from by decide]
  rw [show ((0 : ℚ) * 1.25) = 0 from by norm_num]
  rw [hashT_chanL]
  dsimp only
  rw [hashT_chanP]
  dsimp only
  rw [hashT_chanQ]
  dsimp only
  rw [if_pos rfl]
  rw [hashT_chanA]
  dsimp only
  norm_num [HT, hashT_nibble_val, List.replicate]

theorem sizeD_HT : sizeD HT = (19, 32) := by
  rw [sizeD]
  have hr : ((HT.lx : ℚ) / (HT.ly : ℚ)) = 3 / 5 := by
    norm_num [HT]
  rw [hr, if_neg (by norm_num)]
  have hir : iround (32 * ((3 : ℚ) / 5)) = 19 := by
    rw [iround_of_nonneg (by norm_num)]
    have : (32 * ((3 : ℚ) / 5) + 1 / 2) = 197 / 10 := by norm_num
    rw [this]
    exact Int.floor_eq_iff.mpr (by norm_num)
  rw [hir]
  rfl

theorem aVal_HT : aValD oneC HT 19 32 0 0 = 28 / 225 := by
  rw [aValD, show pairList 5 5 1 =
    [(1, 0), (2, 0), (3, 0), (4, 0), (0, 1), (1, 1), (2, 1), (3, 1), (0, 2),
     (1, 2), (2, 2), (0, 3), (1, 3), (0, 4)] from by decide]
  norm_num [HT, oneC, List.zip, List.zipWith, List.foldl]

theorem clamped_hashT : clampedAlphaD oneC hashT 0 0 = 28 / 225 := by
  unfold clampedAlphaD
  rw [parse_hashT]
  dsimp only
  rw [show (sizeD HT).1 = 19 from by rw [sizeD_HT],
    show (sizeD HT).2 = 32 from by rw [sizeD_HT], aVal_HT]
  norm_num

theorem decode_hashT : Decode oneC hashT = some tT :=
  (Option.some_get (by decide)).symm

theorem tT_dims : tT.1 = 19 ∧ tT.2.1 = 32 := by
  have h : renderImage oneC HT = tT := by
    have := decode_hashT
    rw [Decode, parse_hashT, Option.map_some'] at this
    exact Option.some.inj this
  constructor
  · rw [← h]
    show (sizeD HT).1 = 19
    rw [sizeD_HT]
  · rw [← h]
    show (sizeD HT).2 = 32
    rw [sizeD_HT]

/-- **C6 (counterexample)**: the output alpha byte is not `round(af*255)`:
decoding `hashT` (whose reconstructed alpha at pixel `(0,0)` is `28/225`,
with `af*255 = 31.73…`) writes byte `31` where rounding gives `32`. -/
theorem c6_alpha_byte_counterexample :
    ¬ (∀ (c : ℕ → ℕ → ℕ → ℚ) (hash : List ℕ) (t : ℕ × ℕ × List ℕ),
        Decode c hash = some t → ∀ x y : ℕ, x < t.1 → y < t.2.1 →
          t.2.2.getD (4 * (y * t.1 + x) + 3) 0 =
            (iround (clampedAlphaD c hash x y * 255)).toNat) := by
  intro hcl
  have hx : (0 : ℕ) < tT.1 := by rw [tT_dims.1]; norm_num
  have hy : (0 : ℕ) < tT.2.1 := by rw [tT_dims.2]; norm_num
  have hclaim := hcl oneC hashT tT decode_hashT 0 0 hx hy
  have hact : tT.2.2.getD (4 * (0 * tT.1 + 0) + 3) 0 = 31 := by
    rw [decode_alpha_byte oneC parse_hashT decode_hashT hx hy,
      tT_dims.1, tT_dims.2, aVal_HT]
    rw [show max 0 (min 1 ((28 : ℚ) / 225)) * 255 = 476 / 15 from by norm_num]
    rw [byteOfFloat, Int.floor_eq_iff.mpr (by norm_num : ((31 : ℤ) : ℚ) ≤
      476 / 15 ∧ (476 : ℚ) / 15 < 31 + 1)]
    rfl
  have hrnd : (iround (clampedAlphaD oneC hashT 0 0 * 255)).toNat = 32 := by
    rw [clamped_hashT]
    rw [show ((28 : ℚ) / 225) * 255 = 476 / 15 from by norm_num]
    rw [iround_of_nonneg (by norm_num)]
    rw [show ((476 : ℚ) / 15 + 1 / 2) = 967 / 30 from by norm_num]
    rw [Int.floor_eq_iff.mpr (by norm_num : ((32 : ℤ) : ℚ) ≤ 967 / 30 ∧
      (967 : ℚ) / 30 < 32 + 1)]
    rfl
  rw [hclaim, hrnd] at hact
  exact absurd hact (by norm_num)

/-- **C6 (amended)**: the output alpha byte equals the *truncation*
`⌊clamped_alpha * 255⌋` (Go's float-to-byte conversion), not the rounding
the claim states. -/
theorem c6_alpha_byte_floor (c : ℕ → ℕ → ℕ → ℚ) (hash : List ℕ)
    (t : ℕ × ℕ × List ℕ) (h : Decode c hash = some t) (x y : ℕ)
    (hx : x < t.1) (hy : y < t.2.1) :
    t.2.2.getD (4 * (y * t.1 + x) + 3) 0 =
      (Int.floor (clampedAlphaD c hash x y * 255)).toNat := by
  rcases hp : parseHash hash with _ | H
  · rw [Decode, hp] at h
    cases h
  · have hb := decode_alpha_byte c hp h hx hy
    rw [hb]
    have ht : renderImage c H = t := by
      rw [Decode, hp, Option.map_some'] at h
      exact Option.some.inj h
    have h1 : t.1 = (sizeD H).1 := by rw [← ht]; rfl
    have h21 : t.2.1 = (sizeD H).2 := by rw [← ht]; rfl
    unfold clampedAlphaD
    rw [hp]
    dsimp only
    rw [h1, h21]
    rfl

theorem c6_alpha_byte_floor_witness :
    tT.2.2.getD (4 * (0 * tT.1 + 0) + 3) 0 =
      (Int.floor (clampedAlphaD oneC hashT 0 0 * 255)).toNat :=
  c6_alpha_byte_floor oneC hashT tT decode_hashT 0 0
    (by rw [tT_dims.1]; norm_num) (by rw [tT_dims.2]; norm_num)

/-! ### Encoder-side ranges for the round trip -/

theorem pair00_mem {nx ny : ℕ} (hx3 : 3 ≤ nx) (hx7 : nx ≤ 7) (hy3 : 3 ≤ ny)
    (hy7 : ny ≤ 7) : ((0, 0) : ℕ × ℕ) ∈ pairList nx ny 0 := by
  rw [pairList_zero_eq_cons hx3 hx7 hy3 hy7]
  exact List.mem_cons_self _ _

theorem encodeChannel_dc_mem01 {c : ℕ → ℕ → ℕ → ℚ} {ch : List ℚ} {w h : ℕ}
    (hc0 : ∀ s p, c s 0 p = 1) (hch : ∀ v ∈ ch, 0 ≤ v ∧ v ≤ 1)
    (hw : 1 ≤ w) (hh : 1 ≤ h) (nx ny : ℕ) :
    0 ≤ (encodeChannel c ch w h nx ny).1 ∧
      (encodeChannel c ch w h nx ny).1 ≤ 1 := by
  unfold encodeChannel
  dsimp only
  split_ifs with hmem
  · exact dct_dc_mem hc0 hch hw hh
  · norm_num

theorem encodeChannel_dc_abs {c : ℕ → ℕ → ℕ → ℚ} {ch : List ℚ} {w h : ℕ}
    (hch : ∀ v ∈ ch, |v| ≤ 1) (hcb : ∀ s f p, |c s f p| ≤ 1)
    (hw : 1 ≤ w) (hh : 1 ≤ h) (nx ny : ℕ) :
    |(encodeChannel c ch w h nx ny).1| ≤ 1 := by
  unfold encodeChannel
  dsimp only
  split_ifs with hmem
  · exact dct_abs_le hch hcb hw hh 0 0
  · norm_num

theorem encodeChannel_scale_mem {c : ℕ → ℕ → ℕ → ℚ} {ch : List ℚ} {w h : ℕ}
    (hch : ∀ v ∈ ch, |v| ≤ 1) (hcb : ∀ s f p, |c s f p| ≤ 1)
    (hw : 1 ≤ w) (hh : 1 ≤ h) (nx ny : ℕ) :
    0 ≤ (encodeChannel c ch w h nx ny).2.2 ∧
      (encodeChannel c ch w h nx ny).2.2 ≤ 1 := by
  unfold encodeChannel
  dsimp only
  refine ⟨foldl_max_nonneg _, ?_⟩
  refine foldl_max_le ?_ (by norm_num)
  intro f hf
  rw [List.mem_map] at hf
  obtain ⟨p, -, rfl⟩ := hf
  exact dct_abs_le hch hcb hw hh p.1 p.2

theorem lxZ_mem (img : RGBAImage) (hw : 1 ≤ img.w) (hh : 1 ≤ img.h) :
    1 ≤ lxZ img ∧ lxZ img ≤ 7 := by
  have hL0 : (0 : ℚ) ≤ lLimit img := by
    rw [lLimit]; split_ifs <;> norm_num
  have hL7 : lLimit img ≤ 7 := by
    rw [lLimit]; split_ifs <;> norm_num
  have hmaxpos : (0 : ℚ) < max (img.w : ℚ) (img.h : ℚ) := by
    have : (1 : ℚ) ≤ (img.w : ℚ) := by exact_mod_cast hw
    have := le_max_left (img.w : ℚ) (img.h : ℚ)
    linarith
  have harg0 : 0 ≤ lLimit img * (img.w : ℚ) / max (img.w : ℚ) (img.h : ℚ) := by
    apply div_nonneg (mul_nonneg hL0 (by positivity)) (le_of_lt hmaxpos)
  have harg7 : lLimit img * (img.w : ℚ) / max (img.w : ℚ) (img.h : ℚ) ≤ 7 := by
    rw [div_le_iff hmaxpos]
    have hwle : (img.w : ℚ) ≤ max (img.w : ℚ) (img.h : ℚ) := le_max_left _ _
    nlinarith
  have hir := iround_mem harg0 (by exact_mod_cast harg7 :
    lLimit img * (img.w : ℚ) / max (img.w : ℚ) (img.h : ℚ) ≤ ((7 : ℤ) : ℚ))
  rw [lxZ, imax]
  split_ifs with hc
  · exact ⟨le_refl 1, by norm_num⟩
  · exact ⟨by omega, hir.2⟩

theorem lyZ_mem (img : RGBAImage) (hw : 1 ≤ img.w) (hh : 1 ≤ img.h) :
    1 ≤ lyZ img ∧ lyZ img ≤ 7 := by
  have hL0 : (0 : ℚ) ≤ lLimit img := by
    rw [lLimit]; split_ifs <;> norm_num
  have hL7 : lLimit img ≤ 7 := by
    rw [lLimit]; split_ifs <;> norm_num
  have hmaxpos : (0 : ℚ) < max (img.w : ℚ) (img.h : ℚ) := by
    have : (1 : ℚ) ≤ (img.w : ℚ) := by exact_mod_cast hw
    have := le_max_left (img.w : ℚ) (img.h : ℚ)
    linarith
  have harg0 : 0 ≤ lLimit img * (img.h : ℚ) / max (img.w : ℚ) (img.h : ℚ) := by
    apply div_nonneg (mul_nonneg hL0 (by positivity)) (le_of_lt hmaxpos)
  have harg7 : lLimit img * (img.h : ℚ) / max (img.w : ℚ) (img.h : ℚ) ≤ 7 := by
    rw [div_le_iff hmaxpos]
    have hhle : (img.h : ℚ) ≤ max (img.w : ℚ) (img.h : ℚ) := le_max_right _ _
    nlinarith
  have hir := iround_mem harg0 (by exact_mod_cast harg7 :
    lLimit img * (img.h : ℚ) / max (img.w : ℚ) (img.h : ℚ) ≤ ((7 : ℤ) : ℚ))
  rw [lyZ, imax]
  split_ifs with hc
  · exact ⟨le_refl 1, by norm_num⟩
  · exact ⟨by omega, hir.2⟩

theorem lxE_mem (img : RGBAImage) (hw : 1 ≤ img.w) (hh : 1 ≤ img.h) :
    1 ≤ lxE img ∧ lxE img ≤ 7 := by
  have := lxZ_mem img hw hh
  rw [lxE]
  omega

theorem lyE_mem (img : RGBAImage) (hw : 1 ≤ img.w) (hh : 1 ≤ img.h) :
    1 ≤ lyE img ∧ lyE img ≤ 7 := by
  have := lyZ_mem img hw hh
  rw [lyE]
  omega

theorem lxZ_cast (img : RGBAImage) (hw : 1 ≤ img.w) (hh : 1 ≤ img.h) :
    ((lxE img : ℕ) : ℤ) = lxZ img := by
  have := lxZ_mem img hw hh
  rw [lxE]
  omega

theorem lyZ_cast (img : RGBAImage) (hw : 1 ≤ img.w) (hh : 1 ≤ img.h) :
    ((lyE img : ℕ) : ℤ) = lyZ img := by
  have := lyZ_mem img hw hh
  rw [lyE]
  omega

/-- On a portrait (or square) image the encoder's `ly` is exactly the limit
(5 with alpha, 7 without). -/
theorem lyE_of_portrait (img : RGBAImage) (hw : 1 ≤ img.w)
    (hwh : img.w ≤ img.h) :
    lyE img = (if hasAlphaE img then 5 else 7) := by
  have hh : 1 ≤ img.h := le_trans hw hwh
  have hmax : max (img.w : ℚ) (img.h : ℚ) = (img.h : ℚ) :=
    max_eq_right (by exact_mod_cast hwh)
  have hne : (img.h : ℚ) ≠ 0 := by
    have : (1 : ℚ) ≤ (img.h : ℚ) := by exact_mod_cast hh
    linarith
  have hdiv : lLimit img * (img.h : ℚ) / (img.h : ℚ) = lLimit img := by
    field_simp
  have hlim : iround (lLimit img) = (if hasAlphaE img then 5 else 7 : ℤ) := by
    rw [lLimit]
    split_ifs
    · rw [show (5 : ℚ) = ((5 : ℕ) : ℚ) from by norm_num, iround_natCast]
      norm_num
    · rw [show (7 : ℚ) = ((7 : ℕ) : ℚ) from by norm_num, iround_natCast]
      norm_num
  rw [lyE, lyZ, hmax, hdiv, hlim, imax]
  split_ifs <;> omega

/-- On a strictly landscape image the encoder's `lx` is exactly the limit. -/
theorem lxE_of_landscape (img : RGBAImage) (hh : 1 ≤ img.h)
    (hwh : img.h < img.w) :
    lxE img = (if hasAlphaE img then 5 else 7) := by
  have hw : 1 ≤ img.w := by omega
  have hmax : max (img.w : ℚ) (img.h : ℚ) = (img.w : ℚ) :=
    max_eq_left (by exact_mod_cast (le_of_lt hwh))
  have hne : (img.w : ℚ) ≠ 0 := by
    have : (1 : ℚ) ≤ (img.w : ℚ) := by exact_mod_cast hw
    linarith
  have hdiv : lLimit img * (img.w : ℚ) / (img.w : ℚ) = lLimit img := by
    field_simp
  have hlim : iround (lLimit img) = (if hasAlphaE img then 5 else 7 : ℤ) := by
    rw [lLimit]
    split_ifs
    · rw [show (5 : ℚ) = ((5 : ℕ) : ℚ) from by norm_num, iround_natCast]
      norm_num
    · rw [show (7 : ℚ) = ((7 : ℕ) : ℚ) from by norm_num, iround_natCast]
      norm_num
  rw [lxE, lxZ, hmax, hdiv, hlim, imax]
  split_ifs <;> omega

theorem lDCE_mem01 (c : ℕ → ℕ → ℕ → ℚ) {img : RGBAImage}
    (hc0 : ∀ s p, c s 0 p = 1) (hwf : img.WF) :
    0 ≤ lDCE c img ∧ lDCE c img ≤ 1 := by
  obtain ⟨hw, hh, -, hb⟩ := hwf
  rw [lDCE, lTriple]
  exact encodeChannel_dc_mem01 hc0 (lChannel_mem hb) hw hh _ _

theorem pDCE_abs (c : ℕ → ℕ → ℕ → ℚ) {img : RGBAImage}
    (hcb : ∀ s f p, |c s f p| ≤ 1) (hwf : img.WF) : |pDCE c img| ≤ 1 := by
  obtain ⟨hw, hh, -, hb⟩ := hwf
  rw [pDCE, pTriple]
  exact encodeChannel_dc_abs (pChannel_abs hb) hcb hw hh _ _

theorem qDCE_abs (c : ℕ → ℕ → ℕ → ℚ) {img : RGBAImage}
    (hcb : ∀ s f p, |c s f p| ≤ 1) (hwf : img.WF) : |qDCE c img| ≤ 1 := by
  obtain ⟨hw, hh, -, hb⟩ := hwf
  rw [qDCE, qTriple]
  exact encodeChannel_dc_abs (qChannel_abs hb) hcb hw hh _ _

theorem lScaleE_mem01 (c : ℕ → ℕ → ℕ → ℚ) {img : RGBAImage}
    (hcb : ∀ s f p, |c s f p| ≤ 1) (hwf : img.WF) :
    0 ≤ lScaleE c img ∧ lScaleE c img ≤ 1 := by
  obtain ⟨hw, hh, -, hb⟩ := hwf
  rw [lScaleE, lTriple]
  exact encodeChannel_scale_mem (lChannel_abs hb) hcb hw hh _ _

theorem pScaleE_mem01 (c : ℕ → ℕ → ℕ → ℚ) {img : RGBAImage}
    (hcb : ∀ s f p, |c s f p| ≤ 1) (hwf : img.WF) :
    0 ≤ pScaleE c img ∧ pScaleE c img ≤ 1 := by
  obtain ⟨hw, hh, -, hb⟩ := hwf
  rw [pScaleE, pTriple]
  exact encodeChannel_scale_mem (pChannel_abs hb) hcb hw hh _ _

theorem qScaleE_mem01 (c : ℕ → ℕ → ℕ → ℚ) {img : RGBAImage}
    (hcb : ∀ s f p, |c s f p| ≤ 1) (hwf : img.WF) :
    0 ≤ qScaleE c img ∧ qScaleE c img ≤ 1 := by
  obtain ⟨hw, hh, -, hb⟩ := hwf
  rw [qScaleE, qTriple]
  exact encodeChannel_scale_mem (qChannel_abs hb) hcb hw hh _ _

/-- `header24` written as the cast of a natural number below `2^24` whose bit
23 is the alpha flag. -/
theorem header24E_as_nat (c : ℕ → ℕ → ℕ → ℚ) {img : RGBAImage}
    (hc0 : ∀ s p, c s 0 p = 1) (hcb : ∀ s f p, |c s f p| ≤ 1) (hwf : img.WF) :
    ∃ n : ℕ, header24E c img = (n : ℤ) ∧ n < 2 ^ 24 ∧
      n >>> 23 = (if hasAlphaE img then 1 else 0) := by
  have hl := lDCE_mem01 c hc0 hwf
  have hp := abs_le.mp (pDCE_abs c hcb hwf)
  have hq := abs_le.mp (qDCE_abs c hcb hwf)
  have hs := lScaleE_mem01 c hcb hwf
  have h1 : 0 ≤ iround (63 * lDCE c img) ∧ iround (63 * lDCE c img) ≤ 63 :=
    iround_mem (by nlinarith [hl.1]) (by push_cast; nlinarith [hl.2])
  have h2 : 0 ≤ iround (31.5 + 31.5 * pDCE c img) ∧
      iround (31.5 + 31.5 * pDCE c img) ≤ 63 :=
    iround_mem (by nlinarith [hp.1]) (by push_cast; nlinarith [hp.2])
  have h3 : 0 ≤ iround (31.5 + 31.5 * qDCE c img) ∧
      iround (31.5 + 31.5 * qDCE c img) ≤ 63 :=
    iround_mem (by nlinarith [hq.1]) (by push_cast; nlinarith [hq.2])
  have h4 : 0 ≤ iround (31 * lScaleE c img) ∧ iround (31 * lScaleE c img) ≤ 31 :=
    iround_mem (by nlinarith [hs.1]) (by push_cast; nlinarith [hs.2])
  obtain ⟨n1, hn1⟩ : ∃ n : ℕ, iround (63 * lDCE c img) = (n : ℤ) :=
    ⟨_, (Int.toNat_of_nonneg h1.1).symm⟩
  obtain ⟨n2, hn2⟩ : ∃ n : ℕ, iround (31.5 + 31.5 * pDCE c img) = (n : ℤ) :=
    ⟨_, (Int.toNat_of_nonneg h2.1).symm⟩
  obtain ⟨n3, hn3⟩ : ∃ n : ℕ, iround (31.5 + 31.5 * qDCE c img) = (n : ℤ) :=
    ⟨_, (Int.toNat_of_nonneg h3.1).symm⟩
  obtain ⟨n4, hn4⟩ : ∃ n : ℕ, iround (31 * lScaleE c img) = (n : ℤ) :=
    ⟨_, (Int.toNat_of_nonneg h4.1).symm⟩
  have hb1 : n1 ≤ 63 := by omega
  have hb2 : n2 ≤ 63 := by omega
  have hb3 : n3 ≤ 63 := by omega
  have hb4 : n4 ≤ 31 := by omega
  have hdef : header24E c img =
      (if hasAlphaE img then
        Int.lor (Int.lor (Int.lor (Int.lor (iround (63 * lDCE c img))
          (iround (31.5 + 31.5 * pDCE c img) <<< (6 : ℤ)))
          (iround (31.5 + 31.5 * qDCE c img) <<< (12 : ℤ)))
          (iround (31 * lScaleE c img) <<< (18 : ℤ))) ((1 : ℤ) <<< (23 : ℤ))
      else
        Int.lor (Int.lor (Int.lor (iround (63 * lDCE c img))
          (iround (31.5 + 31.5 * pDCE c img) <<< (6 : ℤ)))
          (iround (31.5 + 31.5 * qDCE c img) <<< (12 : ℤ)))
          (iround (31 * lScaleE c img) <<< (18 : ℤ))) := rfl
  have hbase :
      Int.lor (Int.lor (Int.lor (iround (63 * lDCE c img))
          (iround (31.5 + 31.5 * pDCE c img) <<< (6 : ℤ)))
          (iround (31.5 + 31.5 * qDCE c img) <<< (12 : ℤ)))
          (iround (31 * lScaleE c img) <<< (18 : ℤ)) =
        ((n1 + n2 * 2 ^ 6 + n3 * 2 ^ 12 + n4 * 2 ^ 18 : ℕ) : ℤ) := by
    rw [hn1, hn2, hn3, hn4,
      show (6 : ℤ) = ((6 : ℕ) : ℤ) from by norm_num,
      show (12 : ℤ) = ((12 : ℕ) : ℤ) from by norm_num,
      show (18 : ℤ) = ((18 : ℕ) : ℤ) from by norm_num,
      intToNat_lor_shl, intToNat_lor_shl, intToNat_lor_shl]
    have hc1 : n1 < 2 ^ 6 := by omega
    have hc2 : n1 + n2 * 2 ^ 6 < 2 ^ 12 := by omega
    have hc3 : n1 + n2 * 2 ^ 6 + n3 * 2 ^ 12 < 2 ^ 18 := by omega
    rw [lor_shift_add _ hc1, lor_shift_add _ hc2, lor_shift_add _ hc3]
  by_cases hha : hasAlphaE img
  · refine ⟨n1 + n2 * 2 ^ 6 + n3 * 2 ^ 12 + n4 * 2 ^ 18 + 2 ^ 23, ?_, by omega, ?_⟩
    · rw [hdef, if_pos hha, hbase,
        show (1 : ℤ) = ((1 : ℕ) : ℤ) from by norm_num,
        show (23 : ℤ) = ((23 : ℕ) : ℤ) from by norm_num,
        intToNat_lor_shl]
      have hlt : n1 + n2 * 2 ^ 6 + n3 * 2 ^ 12 + n4 * 2 ^ 18 < 2 ^ 23 := by omega
      rw [lor_shift_add _ hlt]
      norm_num
    · rw [if_pos hha, Nat.shiftRight_eq_div_pow]
      omega
  · refine ⟨n1 + n2 * 2 ^ 6 + n3 * 2 ^ 12 + n4 * 2 ^ 18, ?_, by omega, ?_⟩
    · rw [hdef, if_neg hha, hbase]
    · rw [if_neg hha, Nat.shiftRight_eq_div_pow]
      omega

/-- `header16` written as the cast of a natural number below `2^16`: its low
3 bits hold the stored grid count and bit 15 the landscape flag. -/
theorem header16E_as_nat (c : ℕ → ℕ → ℕ → ℚ) {img : RGBAImage}
    (hcb : ∀ s f p, |c s f p| ≤ 1) (hwf : img.WF) :
    ∃ n : ℕ, header16E c img = (n : ℤ) ∧ n < 2 ^ 16 ∧
      n &&& 7 = (if isLandscapeE img = 1 then lyE img else lxE img) ∧
      n >>> 15 = isLandscapeE img := by
  obtain ⟨hw, hh, -, -⟩ := id hwf
  have hp := pScaleE_mem01 c hcb hwf
  have hq := qScaleE_mem01 c hcb hwf
  have h5 : 0 ≤ iround (63 * pScaleE c img) ∧ iround (63 * pScaleE c img) ≤ 63 :=
    iround_mem (by nlinarith [hp.1]) (by push_cast; nlinarith [hp.2])
  have h6 : 0 ≤ iround (63 * qScaleE c img) ∧ iround (63 * qScaleE c img) ≤ 63 :=
    iround_mem (by nlinarith [hq.1]) (by push_cast; nlinarith [hq.2])
  obtain ⟨n5, hn5⟩ : ∃ n : ℕ, iround (63 * pScaleE c img) = (n : ℤ) :=
    ⟨_, (Int.toNat_of_nonneg h5.1).symm⟩
  obtain ⟨n6, hn6⟩ : ∃ n : ℕ, iround (63 * qScaleE c img) = (n : ℤ) :=
    ⟨_, (Int.toNat_of_nonneg h6.1).symm⟩
  have hb5 : n5 ≤ 63 := by omega
  have hb6 : n6 ≤ 63 := by omega
  have hstored : (if isLandscapeE img = 1 then lyZ img else lxZ img) =
      (((if isLandscapeE img = 1 then lyE img else lxE img) : ℕ) : ℤ) := by
    split_ifs
    · exact (lyZ_cast img hw hh).symm
    · exact (lxZ_cast img hw hh).symm
  have hsb : (if isLandscapeE img = 1 then lyE img else lxE img) ≤ 7 := by
    split_ifs
    · exact (lyE_mem img hw hh).2
    · exact (lxE_mem img hw hh).2
  have hland : isLandscapeE img ≤ 1 := by
    rw [isLandscapeE]
    split_ifs <;> omega
  have hdef : header16E c img =
      Int.lor (Int.lor (Int.lor (if isLandscapeE img = 1 then lyZ img else lxZ img)
        (iround (63 * pScaleE c img) <<< (3 : ℤ)))
        (iround (63 * qScaleE c img) <<< (9 : ℤ)))
        ((isLandscapeE img : ℤ) <<< (15 : ℤ)) := rfl
  refine ⟨(if isLandscapeE img = 1 then lyE img else lxE img) + n5 * 2 ^ 3 +
    n6 * 2 ^ 9 + isLandscapeE img * 2 ^ 15, ?_, by omega, ?_, ?_⟩
  · rw [hdef, hstored, hn5, hn6,
      show (3 : ℤ) = ((3 : ℕ) : ℤ) from by norm_num,
      show (9 : ℤ) = ((9 : ℕ) : ℤ) from by norm_num,
      show (15 : ℤ) = ((15 : ℕ) : ℤ) from by norm_num,
      intToNat_lor_shl, intToNat_lor_shl, intToNat_lor_shl]
    have hc1 : (if isLandscapeE img = 1 then lyE img else lxE img) < 2 ^ 3 := by
      omega
    have hc2 : (if isLandscapeE img = 1 then lyE img else lxE img) +
        n5 * 2 ^ 3 < 2 ^ 9 := by omega
    have hc3 : (if isLandscapeE img = 1 then lyE img else lxE img) +
        n5 * 2 ^ 3 + n6 * 2 ^ 9 < 2 ^ 15 := by omega
    rw [lor_shift_add _ hc1, lor_shift_add _ hc2, lor_shift_add _ hc3]
  · have hm := and_mask ((if isLandscapeE img = 1 then lyE img else lxE img) +
      n5 * 2 ^ 3 + n6 * 2 ^ 9 + isLandscapeE img * 2 ^ 15) 3
    norm_num at hm ⊢
    rw [hm]
    omega
  · rw [Nat.shiftRight_eq_div_pow]
    omega

/-- Reassembling the three little-endian bytes of a 24-bit value. -/
theorem bytes_reassemble24 {v : ℕ} (h : v < 2 ^ 24) :
    v % 256 ||| (v / 2 ^ 8 % 256) <<< 8 ||| (v / 2 ^ 16 % 256) <<< 16 = v := by
  have hc1 : v % 256 < 2 ^ 8 := by omega
  rw [lor_shift_add _ hc1]
  have hc2 : v % 256 + v / 2 ^ 8 % 256 * 2 ^ 8 < 2 ^ 16 := by omega
  rw [lor_shift_add _ hc2]
  omega

/-- Reassembling the two little-endian bytes of a 16-bit value. -/
theorem bytes_reassemble16 {v : ℕ} (h : v < 2 ^ 16) :
    v % 256 ||| (v / 2 ^ 8 % 256) <<< 8 = v := by
  have hc1 : v % 256 < 2 ^ 8 := by omega
  rw [lor_shift_add _ hc1]
  omega

/-- Decoding the header bytes of an encoded hash recovers the alpha flag and
the (clamped) DCT grid the encoder actually used. -/
theorem encode_fields (c : ℕ → ℕ → ℕ → ℚ) {img : RGBAImage}
    (hc0 : ∀ s p, c s 0 p = 1) (hcb : ∀ s f p, |c s f p| ≤ 1) (hwf : img.WF)
    {out : List ℕ} (hout : Encode c img = some out) :
    hasAlphaD out = hasAlphaE img ∧ lxD out = max (lxE img) 3 ∧
      lyD out = max (lyE img) 3 := by
  obtain ⟨hw, hh, -, -⟩ := id hwf
  obtain ⟨out2, ho2, hlen, hg0, hg1, hg2, hg3, hg4, -⟩ := Encode_spec c img
  rw [hout] at ho2
  obtain rfl := Option.some.inj ho2
  obtain ⟨n24, he24, hlt24, hbit⟩ := header24E_as_nat c hc0 hcb hwf
  obtain ⟨n16, he16, hlt16, hand, hshift⟩ := header16E_as_nat c hcb hwf
  have h24 : header24D out = n24 := by
    rw [header24D, hg0, hg1, hg2, he24, byteOfInt_natCast, goShr_natCast,
      byteOfInt_natCast, goShr_natCast, byteOfInt_natCast]
    exact bytes_reassemble24 hlt24
  have h16 : header16D out = n16 := by
    rw [header16D, hg3, hg4, he16, byteOfInt_natCast, goShr_natCast,
      byteOfInt_natCast]
    exact bytes_reassemble16 hlt16
  have hha : hasAlphaD out = hasAlphaE img := by
    rw [hasAlphaD, h24, hbit]
    by_cases hE : hasAlphaE img <;> simp [hE]
  refine ⟨hha, ?_⟩
  by_cases hlw : img.h < img.w
  · have hE : isLandscapeE img = 1 := by rw [isLandscapeE, if_pos hlw]
    have hisl : isLandscapeD out = true := by
      rw [isLandscapeD, h16, hshift, hE]
      rfl
    have hcount : lCountD out = lyE img := by
      rw [lCountD, h16, hand, hE, if_pos rfl]
    have hlx : lxE img = if hasAlphaE img then 5 else 7 :=
      lxE_of_landscape img hh hlw
    have hlx3 : 3 ≤ lxE img := by
      rw [hlx]; split_ifs <;> norm_num
    constructor
    · rw [lxD, hisl, if_pos rfl, hha, ← hlx]
      omega
    · rw [lyD, hisl, if_pos rfl, hcount]
      omega
  · have hE : isLandscapeE img = 0 := by rw [isLandscapeE, if_neg hlw]
    have hisl : isLandscapeD out = false := by
      rw [isLandscapeD, h16, hshift, hE]
      rfl
    have hcount : lCountD out = lxE img := by
      rw [lCountD, h16, hand, hE]
      norm_num
    have hly : lyE img = if hasAlphaE img then 5 else 7 :=
      lyE_of_portrait img hw (Nat.le_of_not_lt hlw)
    have hly3 : 3 ≤ lyE img := by
      rw [hly]; split_ifs <;> norm_num
    constructor
    · rw [lxD, hisl, if_neg (by simp), hcount]
      omega
    · rw [lyD, hisl, if_neg (by simp), hha, ← hly]
      omega

/-- The decoder's nibble demand on an encoded hash equals the number of AC
coefficients the encoder packed. -/
theorem totalNibblesD_encode (c : ℕ → ℕ → ℕ → ℚ) {img : RGBAImage}
    (hc0 : ∀ s p, c s 0 p = 1) (hcb : ∀ s f p, |c s f p| ≤ 1) (hwf : img.WF)
    {out : List ℕ} (hout : Encode c img = some out) :
    totalNibblesD out = nbACE c img := by
  obtain ⟨hw, hh, -, -⟩ := id hwf
  obtain ⟨hha, hlx, hly⟩ := encode_fields c hc0 hcb hwf hout
  have hx3 : 3 ≤ max (lxE img) 3 := le_max_right _ _
  have hx7 : max (lxE img) 3 ≤ 7 := max_le (lxE_mem img hw hh).2 (by norm_num)
  have hy3 : 3 ≤ max (lyE img) 3 := le_max_right _ _
  have hy7 : max (lyE img) 3 ≤ 7 := max_le (lyE_mem img hw hh).2 (by norm_num)
  have hlacl : (lACE c img).length =
      (pairList (max (lxE img) 3) (max (lyE img) 3) 1).length := by
    rw [lACE, lTriple, encodeChannel_ac_length, pairList_filter_ac hx3 hx7 hy3 hy7]
  have hpacl : (pACE c img).length = 5 := by
    rw [pACE, pTriple, encodeChannel_ac_length]
    decide
  have hqacl : (qACE c img).length = 5 := by
    rw [qACE, qTriple, encodeChannel_ac_length]
    decide
  have haacl : (aACE c img).length = 14 := by
    rw [aACE, aTriple, encodeChannel_ac_length]
    decide
  have e1 : (pairList 3 3 1).length = 5 := by decide
  have e2 : (pairList 5 5 1).length = 14 := by decide
  rw [totalNibblesD, nbACE, hha, hlx, hly, hlacl, hpacl, hqacl, haacl, e1, e2]

/-- **C1**: for every well-formed image (non-empty, byte-valued pixel buffer
of the right length), encoding succeeds and the produced hash is accepted by
the decoder: `Decode` on the encoder's output never returns the error value.
The cosine oracle `c` is constrained only by the two properties of the real
cosine the code relies on (`cos 0 = 1` and `|cos| ≤ 1`). -/
theorem c1_encode_decode_roundtrip (c : ℕ → ℕ → ℕ → ℚ)
    (hc0 : ∀ s p, c s 0 p = 1) (hcb : ∀ s f p, |c s f p| ≤ 1)
    (img : RGBAImage) (hwf : img.WF) :
    ∃ bytes, Encode c img = some bytes ∧ (Decode c bytes).isSome = true := by
  obtain ⟨out, hout, hlen, -⟩ := Encode_spec c img
  refine ⟨out, hout, ?_⟩
  obtain ⟨hha, -, -⟩ := encode_fields c hc0 hcb hwf hout
  have hT := totalNibblesD_encode c hc0 hcb hwf hout
  have hnb := nbACE_ge_five c img
  have hsz := hashSizeE_eq c img
  have hstart : startD out = startE img := by
    rw [startD, startE, hha]
  have hs5 : 5 ≤ startE img := by
    rw [startE]
    split_ifs <;> omega
  have hne : parseHash out ≠ none := by
    intro hnone
    rw [parseHash_eq_none_iff] at hnone
    rcases hnone with h | ⟨-, h⟩ | h
    · omega
    · omega
    · rw [hstart, hT] at h
      omega
  rcases hp : parseHash out with _ | H
  · exact absurd hp hne
  · rw [Decode, hp]
    rfl

/-- The round trip instantiated on a concrete 1×1 opaque image and the
constant cosine oracle. -/
theorem c1_encode_decode_roundtrip_witness :
    ∃ bytes, Encode oneC img1 = some bytes ∧ (Decode oneC bytes).isSome = true :=
  c1_encode_decode_roundtrip oneC (fun _ _ => rfl) (fun _ _ _ => abs_one.le)
    img1 (by exact ⟨by decide, by decide, by decide, by decide⟩)

end Thumbhash
